import Mathlib

/-!
# Verification of the KristyAiLessons transcript-fusion core

Shallow embedding of the multi-source transcript fusion and quality-scoring
engine of the repository (the services `language_detection_service.py`,
`direct_assemblyai_service.py` and `enhanced_transcription_service.py`),
together with theorems settling the specification claims about it.

Floating-point numbers are modelled as rationals, Python dicts with a fixed
key set as structures (a key that may be absent becomes an `Option` field),
and the two regex-based text-cleanup pipelines as character-list transforms
mirroring `re.sub` / `re.split` scanning.
-/

namespace Kristy

/-! ## Character-level helpers -/

/-- Python whitespace (`\s`, `str.isspace`, `str.strip`) on the characters
this embedding uses: space, tab, newline, vertical tab, form feed, carriage
return. -/
def pyIsSpace (c : Char) : Bool :=
  c.toNat = 32 || c.toNat = 9 || c.toNat = 10 || c.toNat = 11 || c.toNat = 12 || c.toNat = 13

/-- CJK Unified Ideographs, `U+4E00 .. U+9FFF` (`SCRIPT_RANGES['chinese']`,
also `_is_chinese_character`). -/
def isCJK (c : Char) : Bool := 0x4E00 ≤ c.toNat && c.toNat ≤ 0x9FFF

/-- Cyrillic, `U+0400 .. U+04FF` (`SCRIPT_RANGES['cyrillic']`, also the
`'Ѐ' <= char <= 'ӿ'` test of the comprehensive selector). -/
def isCyrillic (c : Char) : Bool := 0x400 ≤ c.toNat && c.toNat ≤ 0x4FF

/-- The Basic-Latin range of `SCRIPT_RANGES['latin']`: `U+0041 .. U+007A`
(as in the source, this includes the six punctuation characters between
`Z` and `a`). -/
def isLatinRange (c : Char) : Bool := 0x41 ≤ c.toNat && c.toNat ≤ 0x7A

/-- The regex character class `[A-Za-zА-Яа-я]` used by the clean-up regexes
(`А..Я` is `U+0410..U+042F`, `а..я` is `U+0430..U+044F`). -/
def isSentenceLetter (c : Char) : Bool :=
  (0x41 ≤ c.toNat && c.toNat ≤ 0x5A) || (0x61 ≤ c.toNat && c.toNat ≤ 0x7A) ||
  (0x410 ≤ c.toNat && c.toNat ≤ 0x44F)

/-- Python `str.isalpha`, faithful on the character ranges this embedding
uses: ASCII letters, Cyrillic letters `U+0400..U+045F`, CJK ideographs, and
the three Latin letters `ß` (U+00DF), `ı` (U+0131), `ſ` (U+017F). -/
def pyIsAlpha (c : Char) : Bool :=
  (0x41 ≤ c.toNat && c.toNat ≤ 0x5A) || (0x61 ≤ c.toNat && c.toNat ≤ 0x7A) ||
  (0x400 ≤ c.toNat && c.toNat ≤ 0x45F) || (0x4E00 ≤ c.toNat && c.toNat ≤ 0x9FFF) ||
  c.toNat = 0xDF || c.toNat = 0x131 || c.toNat = 0x17F

/-- Python `str.upper` of one character (full Unicode case mapping, which can
expand to several characters), faithful on the ranges this embedding uses:
`a..z` and `а..я` shift down by 32, `ѐ..џ` (U+0450..U+045F, including `ё`)
map to U+0400..U+040F, `ß` expands to `SS`, dotless `ı` maps to `I`, long
`ſ` maps to `S`; everything else (already-uppercase letters, digits,
punctuation, CJK, whitespace) is fixed. -/
def pyUpperChar (c : Char) : List Char :=
  let n := c.toNat
  if 0x61 ≤ n && n ≤ 0x7A then [Char.ofNat (n - 32)]
  else if 0x430 ≤ n && n ≤ 0x44F then [Char.ofNat (n - 32)]
  else if 0x450 ≤ n && n ≤ 0x45F then [Char.ofNat (n - 80)]
  else if n = 0xDF then ['S', 'S']
  else if n = 0x131 then ['I']
  else if n = 0x17F then ['S']
  else [c]

/-! ## Regex-style text transforms (character lists) -/

/-- Python `re.sub(r'\s+', ' ', text)`: every maximal whitespace run becomes one
space. The flag records whether we are inside a run already emitted. -/
def collapseWSAux : Bool → List Char → List Char
  | _, [] => []
  | inRun, c :: cs =>
    if pyIsSpace c then
      if inRun then collapseWSAux true cs else ' ' :: collapseWSAux true cs
    else c :: collapseWSAux false cs

/-- Python `re.sub(r'\s+', ' ', text)`. -/
def collapseWS (l : List Char) : List Char := collapseWSAux false l

/-- Python `re.sub(r'\s+([cls])', r'\1', text)` for a single-character class `cls`:
a whitespace run directly followed by a `cls` character is deleted.
`run` holds the pending whitespace run, reversed. -/
def rmSpaceBeforeAux (cls : Char → Bool) : List Char → List Char → List Char
  | run, [] => run.reverse
  | run, c :: cs =>
    if pyIsSpace c then rmSpaceBeforeAux cls (c :: run) cs
    else if cls c && !run.isEmpty then c :: rmSpaceBeforeAux cls [] cs
    else run.reverse ++ c :: rmSpaceBeforeAux cls [] cs

/-- Python `re.sub(r'\s+([cls])', r'\1', text)`. -/
def rmSpaceBefore (cls : Char → Bool) (l : List Char) : List Char := rmSpaceBeforeAux cls [] l

/-- Python `re.sub(r'(p)(letter)', r'\1 \2', text)` for single-character classes:
insert a space between a `p` character and a following `letter` character;
the matched pair is consumed and scanning resumes after it. -/
def addSpaceAfter (p letter : Char → Bool) : List Char → List Char
  | [] => []
  | [c] => [c]
  | c :: d :: rest =>
    if p c && letter d then c :: ' ' :: d :: addSpaceAfter p letter rest
    else c :: addSpaceAfter p letter (d :: rest)

/-- Python `str.rstrip`: drop trailing whitespace. -/
def rstripL : List Char → List Char
  | [] => []
  | c :: cs => if (rstripL cs).isEmpty && pyIsSpace c then [] else c :: rstripL cs

/-- Python `str.strip`. -/
def pyStripL (l : List Char) : List Char := rstripL (l.dropWhile pyIsSpace)

/-- Python `str.strip` on strings. -/
def pyStrip (s : String) : String := ⟨pyStripL s.data⟩

mutual

/-- Python `re.split(r'([sep]\s*)', text)` for a single-character class, chunk mode:
accumulating a (reversed) sentence chunk. Produces the alternating
chunk/separator pieces, even indices chunks, odd indices separators. -/
def splitChunk (sep : Char → Bool) (acc : List Char) : List Char → List (List Char)
  | [] => [acc.reverse]
  | c :: cs =>
    if sep c then acc.reverse :: splitSep sep [c] cs else splitChunk sep (c :: acc) cs

/-- Python `re.split(r'([sep]\s*)', text)`, separator mode: `acc` holds the reversed
separator (one `sep` character plus the following whitespace). -/
def splitSep (sep : Char → Bool) (acc : List Char) : List Char → List (List Char)
  | [] => [acc.reverse, []]
  | c :: cs =>
    if pyIsSpace c then splitSep sep (c :: acc) cs
    else if sep c then acc.reverse :: [] :: splitSep sep [c] cs
    else acc.reverse :: splitChunk sep [c] cs

end

/-- First character uppercased when alphabetic:
`sentence[0].upper() + sentence[1:] if len(sentence) > 1 else sentence.upper()`
guarded by `sentence[0].isalpha()`. -/
def capFirst : List Char → List Char
  | [] => []
  | h :: t => if pyIsAlpha h then pyUpperChar h ++ t else h :: t

/-- Per-piece body of the capitalisation loop: an even-indexed piece with
non-blank strip is replaced by its strip, first letter uppercased; a blank
piece is kept unchanged. -/
def capChunk (l : List Char) : List Char :=
  if (pyStripL l).isEmpty then l else capFirst (pyStripL l)

/-- The capitalisation loop over the `re.split` pieces (`i % 2 == 0` pieces
are sentence contents). -/
def capEvens : Nat → List (List Char) → List (List Char)
  | _, [] => []
  | i, p :: ps => (if i % 2 = 0 then capChunk p else p) :: capEvens (i + 1) ps

/-- Python `re.sub(r'(cls){2,}', r'\1', text)`: a maximal run of `cls` characters is
replaced by its last character (`\1` is the last repetition); runs of length
one are untouched, which coincides with keeping the last character. -/
def collapseRunsAux (cls : Char → Bool) : Option Char → List Char → List Char
  | none, [] => []
  | some p, [] => [p]
  | none, c :: cs =>
    if cls c then collapseRunsAux cls (some c) cs else c :: collapseRunsAux cls none cs
  | some p, c :: cs =>
    if cls c then collapseRunsAux cls (some c) cs
    else p :: c :: collapseRunsAux cls none cs

/-- Python `re.sub(r'(cls){2,}', r'\1', text)`. -/
def collapseRuns (cls : Char → Bool) (l : List Char) : List Char := collapseRunsAux cls none l

/-! ## The clean-up of `_clean_up_natural_text` -/

/-- The class `[。，！？：；]`. -/
def isCJKPunct (c : Char) : Bool :=
  c = '。' || c = '，' || c = '！' || c = '？' || c = '：' || c = '；'

/-- The class `[.!?:;,]`. -/
def isAsciiPunctCls (c : Char) : Bool :=
  c = '.' || c = '!' || c = '?' || c = ':' || c = ';' || c = ','

/-- The class `[.!?]`. -/
def isTermAscii (c : Char) : Bool := c = '.' || c = '!' || c = '?'

/-- The class `[。！？]`. -/
def isTermCJK (c : Char) : Bool := c = '。' || c = '！' || c = '？'

/-- The class `[.!?。！？]` (sentence-terminal punctuation). -/
def isTermPunct (c : Char) : Bool := isTermAscii c || isTermCJK c

/-- Python `_clean_up_natural_text` of `enhanced_transcription_service.py`, on
character lists: collapse whitespace, remove spaces before CJK then ASCII
punctuation, insert a space after terminal punctuation followed by a letter,
capitalise sentence starts (splitting on `([.!?。！？]\s*)`), strip, then
collapse runs of two or more terminal punctuation marks. -/
def cleanUpL (l : List Char) : List Char :=
  let t1 := collapseWS l
  let t2 := rmSpaceBefore isCJKPunct t1
  let t3 := rmSpaceBefore isAsciiPunctCls t2
  let t4 := addSpaceAfter isTermAscii isSentenceLetter t3
  let t5 := addSpaceAfter isTermCJK isSentenceLetter t4
  let t6 := pyStripL (capEvens 0 (splitChunk isTermPunct [] t5)).flatten
  collapseRuns isTermPunct t6

/-- Python `_clean_up_natural_text` on strings. -/
def cleanUpNaturalText (s : String) : String := ⟨cleanUpL s.data⟩

/-- The text has at least one non-whitespace character — the invariant that
the clean-up pipeline preserves. -/
def hasNonWS (l : List Char) : Prop := ∃ c ∈ l, pyIsSpace c = false

/-- Python `str.startswith` on character lists. -/
def charsStartWith : List Char → List Char → Bool
  | _, [] => true
  | [], _ :: _ => false
  | c :: cs, d :: ds => c = d && charsStartWith cs ds

/-- Python `str.startswith` for a single string argument. -/
def pyStartsWith (s p : String) : Bool := charsStartWith s.data p.data

/-! ## Language detection service (`language_detection_service.py`) -/

/-- Python `\w` (word character), faithful on the ranges this embedding
uses: letters, digits, underscore. -/
def pyIsWordChar (c : Char) : Bool := pyIsAlpha c || c.isDigit || c = '_'

/-- Python `_clean_text`: strip, collapse whitespace, then replace every
non-word non-space character by a space. -/
def clean_text (s : String) : String :=
  ⟨(collapseWS (pyStripL s.data)).map (fun c => if pyIsWordChar c || pyIsSpace c then c else ' ')⟩

/-- Python `max(keys, key=lambda k: d[k])` over an association list in
insertion order: the first key attaining the maximal value (later keys
replace the best only on a strictly greater value). -/
def pyMaxKeyAux : (String × ℚ) → List (String × ℚ) → String
  | best, [] => best.1
  | best, p :: rest => if p.2 > best.2 then pyMaxKeyAux p rest else pyMaxKeyAux best rest

/-- Result dict of `_analyze_scripts`; `total_chars` is absent (`none`) in
the zero-character early return. -/
structure ScriptAnalysis where
  scripts : List (String × ℚ)
  dominant_script : String
  total_chars : Option Nat
deriving DecidableEq, Repr

/-- Python `_analyze_scripts`: count non-space characters into the first matching
Unicode bucket (chinese, cyrillic, latin in `SCRIPT_RANGES` order, else
other), report percentages of `len(text.replace(' ', ''))` and the first
bucket of maximal percentage. -/
def analyze_scripts (text : String) : ScriptAnalysis :=
  let total := (text.data.filter (fun c => c ≠ ' ')).length
  if total = 0 then ⟨[], "unknown", none⟩
  else
    let l := text.data.filter (fun c => !pyIsSpace c)
    let nCh := (l.filter (fun c => isCJK c)).length
    let nCy := (l.filter (fun c => !isCJK c && isCyrillic c)).length
    let nLa := (l.filter (fun c => !isCJK c && !isCyrillic c && isLatinRange c)).length
    let nOt := (l.filter (fun c => !isCJK c && !isCyrillic c && !isLatinRange c)).length
    let pct := fun (n : Nat) => ((n : ℚ) / (total : ℚ)) * 100
    let scripts := [("chinese", pct nCh), ("cyrillic", pct nCy), ("latin", pct nLa),
                    ("other", pct nOt)]
    ⟨scripts, pyMaxKeyAux ("chinese", pct nCh) scripts.tail, some total⟩

/-- Result dict of `_library_detect` (the `langdetect` wrapper, treated as a
black box); `primary_language` and `error` keys can be absent. -/
structure LibraryDetection where
  primary_language : Option String
  languages : List (String × ℚ)
  success : Bool
  error : Option String
deriving DecidableEq, Repr

/-- Result dict of `_combine_detections`; `script_dominant` is absent in the
canonical empty result. -/
structure CombinedResult where
  primary_language : String
  languages : List String
  confidence : ℚ
  script_dominant : Option String
deriving DecidableEq, Repr

/-- Python `_combine_detections`: seed languages/confidence/primary from the
library detection (probability threshold 0.1, confidence is the maximal
probability), add `zh`/`ru`/`en` on script evidence (> 5 % chinese,
> 5 % cyrillic, > 50 % latin with neither zh nor ru), then boost confidence
by 0.2 (capped at 1) when the dominant script is known. -/
def combine_detections (script : ScriptAnalysis) (lib : LibraryDetection) : CombinedResult :=
  let primary := if lib.success then lib.primary_language.getD "unknown" else "unknown"
  let seed : List String × ℚ :=
    if lib.success then
      match lib.languages with
      | [] => ([], 0)
      | p :: rest =>
        (((p :: rest).filter (fun q => q.2 > 0.1)).map (fun q => q.1),
         rest.foldl (fun acc q => max acc q.2) p.2)
    else ([], 0)
  let languages := seed.1
  let confidence := seed.2
  let get := fun (k : String) => ((script.scripts.lookup k).getD 0)
  let languages :=
    if get "chinese" > 5 && !languages.contains "zh" then languages ++ ["zh"] else languages
  let languages :=
    if get "cyrillic" > 5 && !languages.contains "ru" then languages ++ ["ru"] else languages
  let languages :=
    if get "latin" > 50 && !(languages.contains "zh" || languages.contains "ru")
        && !languages.contains "en" then
      languages ++ ["en"]
    else languages
  let dominant := script.dominant_script
  let confidence :=
    if dominant ≠ "unknown" && dominant ≠ "other" then min (confidence + 0.2) 1 else confidence
  ⟨primary, languages, confidence, some dominant⟩

/-- Python `_determine_lesson_type`: language-pair rules, then primary-language
fallback. -/
def determine_lesson_type (combined : CombinedResult) : String :=
  let s := combined.languages
  if s.contains "ru" && s.contains "zh" then "chinese"
  else if s.contains "ru" && s.contains "en" then "english"
  else if s.contains "zh" then "chinese"
  else if s.contains "en" && !s.contains "ru" then "english"
  else if combined.primary_language = "zh" then "chinese"
  else if combined.primary_language = "en" then "english"
  else "unknown"

/-- Result dict of `detect_language_mix`. -/
structure DetectionResult where
  script_analysis : ScriptAnalysis
  library_detection : LibraryDetection
  combined_result : CombinedResult
  lesson_type : String
  confidence : ℚ
  primary_language : String
  detected_languages : List String
  is_multilingual : Bool
deriving DecidableEq, Repr

/-- Python `self.min_text_length` set in `LanguageDetectionService.__init__`. -/
def minTextLength : Nat := 10

/-- Python `_empty_detection_result`. -/
def emptyDetectionResult : DetectionResult where
  script_analysis := ⟨[], "unknown", none⟩
  library_detection := ⟨none, [], false, none⟩
  combined_result := ⟨"unknown", [], 0, none⟩
  lesson_type := "unknown"
  confidence := 0
  primary_language := "unknown"
  detected_languages := []
  is_multilingual := false

/-- Python `detect_language_mix`. The `langdetect` library call (`_library_detect`)
is external and probabilistic, so it is abstracted as the function argument
`libDetect`, applied to the cleaned text exactly where the source calls it. -/
def detect_language_mix (libDetect : String → LibraryDetection) (text : String) :
    DetectionResult :=
  if text.length = 0 ∨ (pyStrip text).length < minTextLength then emptyDetectionResult
  else
    let cleaned := clean_text text
    let script := analyze_scripts cleaned
    let lib := libDetect cleaned
    let combined := combine_detections script lib
    { script_analysis := script
      library_detection := lib
      combined_result := combined
      lesson_type := determine_lesson_type combined
      confidence := combined.confidence
      primary_language := combined.primary_language
      detected_languages := combined.languages
      is_multilingual := combined.languages.length > 1 }

/-- Result dict of `get_lesson_language_config`. -/
structure LessonConfig where
  lesson_type : String
  expected_languages : List String
  primary_language : String
  secondary_language : Option String
  supports_multilingual : Bool
deriving DecidableEq, Repr

/-- Python `LESSON_TYPES`. -/
def LESSON_TYPES : List (String × List String) :=
  [("chinese", ["ru", "zh"]), ("english", ["ru", "en"])]

/-- Python `get_lesson_language_config`: unknown lesson types default to
`chinese`. (`expected_languages[0]` always exists for the two static
entries; the `headD` default is never reached.) -/
def get_lesson_language_config (lesson_type : String) : LessonConfig :=
  let lt := if (LESSON_TYPES.lookup lesson_type).isSome then lesson_type else "chinese"
  let expected := (LESSON_TYPES.lookup lt).getD ["ru", "zh"]
  { lesson_type := lt
    expected_languages := expected
    primary_language := expected.headD "ru"
    secondary_language := expected[1]?
    supports_multilingual := true }

/-- Python `calculate_quality_score`: `confidence * 0.4`, `+0.3` on lesson-type
match, `+0.2` for multilingual chinese/english lessons, `+0.1` on non-empty
intersection of expected and detected languages, clamped by `min(score, 1.0)`. -/
def calculate_quality_score (detection : DetectionResult) (expected_lesson_type : String) : ℚ :=
  let score : ℚ := 0
  let score := score + detection.confidence * 0.4
  let score := if detection.lesson_type = expected_lesson_type then score + 0.3 else score
  let score :=
    if detection.is_multilingual
        && (expected_lesson_type = "chinese" || expected_lesson_type = "english") then
      score + 0.2
    else score
  let expected_langs := (get_lesson_language_config expected_lesson_type).expected_languages
  let score :=
    if expected_langs.any (fun l => detection.detected_languages.contains l) then score + 0.1
    else score
  min score 1

/-! ## Comprehensive approach selector (`direct_assemblyai_service.py`) -/

/-- The fields of a `results_analysis` entry that
`_select_best_approach_by_comprehensive_score` reads. -/
structure ApproachAnalysis where
  text : String
  quality_score : ℚ
  confidence : ℚ
  text_length : Nat
  is_multilingual : Bool
deriving DecidableEq, Repr

/-- Python `any('Ѐ' <= char <= 'ӿ' for char in text)`. -/
def containsRussian (text : String) : Bool := text.data.any isCyrillic

/-- The non-chinese branch of `_select_best_approach_by_comprehensive_score`:
quality 40 %, confidence 30 %, length 20 % (saturating at 100 characters),
multilingual adjustments, and a halving penalty under 10 characters. -/
def comprehensiveStandardScore (approach_name : String) (a : ApproachAnalysis)
    (lesson_type : String) : ℚ :=
  let score : ℚ := 0
  let score := score + a.quality_score * 40
  let score := score + a.confidence * 30
  let score := score + min ((a.text_length : ℚ) / 100) 1 * 20
  let score :=
    if lesson_type = "english" || lesson_type = "spanish" then
      if approach_name = "multilingual" && a.is_multilingual then score + 25
      else if pyStartsWith approach_name "specific_" && !a.is_multilingual then score - 15
      else if approach_name = "multilingual" then score + 10
      else score
    else
      if a.is_multilingual then score + 10 else score
  if a.text_length < 10 then score * 0.5 else score

/-- The scores dict built by `_select_best_approach_by_comprehensive_score`:
for chinese lessons a fixed 1000 for any text containing a Cyrillic
character and a fixed 10 otherwise; the composite score for the rest. -/
def comprehensiveScores (results_analysis : List (String × ApproachAnalysis))
    (lesson_type : String) : List (String × ℚ) :=
  if lesson_type = "chinese" then
    results_analysis.map (fun p => (p.1, if containsRussian p.2.text then (1000 : ℚ) else 10))
  else
    results_analysis.map (fun p => (p.1, comprehensiveStandardScore p.1 p.2 lesson_type))

/-- Python `_select_best_approach_by_comprehensive_score`: `None` when there are no
scores, otherwise `max(scores.keys(), key=lambda k: scores[k])`. -/
def select_best_approach_by_comprehensive_score
    (results_analysis : List (String × ApproachAnalysis)) (lesson_type : String) :
    Option String :=
  match comprehensiveScores results_analysis lesson_type with
  | [] => none
  | p :: rest => some (pyMaxKeyAux p rest)

/-! ## Timeline fusion engine (`enhanced_transcription_service.py`) -/

/-- A word dict of the unified timeline. The extraction always writes
`text`, `start`, `end`, `confidence`, `speaker` and `source`; an `Option`
field models a key that other producers may omit, read back through `.get`
with the source's defaults. -/
structure TimelineWord where
  text : String
  start? : Option ℚ
  end? : Option ℚ
  confidence? : Option ℚ
  speaker? : Option String
  source : String
  detected_language? : Option String := none
  estimated_timing : Bool := false
deriving DecidableEq, Repr

/-- Python `word.get("start", 0)`, the sort key of the unified timeline. -/
def startKey (w : TimelineWord) : ℚ := w.start?.getD 0

/-- Python `word.get("confidence", 1.0)` in `_create_natural_text_from_timeline`. -/
def confValue (w : TimelineWord) : ℚ := w.confidence?.getD 1

/-- Python `word.get("speaker", "Unknown")`. -/
def speakerValue (w : TimelineWord) : String := w.speaker?.getD "Unknown"

/-- A raw provider word dict: every key may be absent. -/
structure RawWord where
  text? : Option String := none
  start? : Option ℚ := none
  end? : Option ℚ := none
  confidence? : Option ℚ := none
  speaker? : Option String := none
  detected_language? : Option String := none
deriving DecidableEq, Repr

/-- A Recall-API participant dict (`words` itself may be absent, in which
case the participant is skipped). -/
structure Participant where
  speaker? : Option String := none
  words? : Option (List RawWord) := none
deriving DecidableEq, Repr

/-- The provider result shapes `_extract_words_with_timestamps`
distinguishes: a list of participants (Recall), a dict with a `words` key
(AssemblyAI), or a dict with only a `text` key. -/
inductive ProviderResult where
  | participants (ps : List Participant)
  | assembly (words : List RawWord)
  | textOnly (text : String)
deriving DecidableEq, Repr

/-- Python `str.split()` with no argument: split on whitespace runs,
discarding empty pieces. -/
def pySplitWSAux : List Char → List Char → List String
  | acc, [] => if acc.isEmpty then [] else [⟨acc.reverse⟩]
  | acc, c :: cs =>
    if pyIsSpace c then
      if acc.isEmpty then pySplitWSAux [] cs else ⟨acc.reverse⟩ :: pySplitWSAux [] cs
    else pySplitWSAux (c :: acc) cs

/-- Python `str.split()`. -/
def pySplitWS (s : String) : List String := pySplitWSAux [] s.data

/-- Python `word.get("speaker") or participant.get("speaker", "Unknown")`:
the word's speaker when truthy (present and non-empty), else the
participant's, else `"Unknown"`. -/
def participantSpeaker (w : RawWord) (p : Participant) : String :=
  match w.speaker? with
  | some s => if s = "" then p.speaker?.getD "Unknown" else s
  | none => p.speaker?.getD "Unknown"

/-- The AssemblyAI-branch timestamp:
`word.get("start", 0) / 1000.0 if word.get("start") else 0` — a truthy
(present, non-zero) value is divided by 1000 unconditionally. -/
def msToSeconds (v : Option ℚ) : ℚ :=
  match v with
  | some s => if s = 0 then 0 else s / 1000
  | none => 0

/-- Python `_extract_words_with_timestamps`: normalise one provider result into
timeline word dicts. Recall participant words pass timestamps through
unchanged; AssemblyAI words get `msToSeconds`; text-only results get
estimated timestamps of 0.5 seconds per word. -/
def extract_words_with_timestamps (result : ProviderResult) (source : String) :
    List TimelineWord :=
  match result with
  | .participants ps =>
    ps.flatMap (fun p =>
      match p.words? with
      | none => []
      | some ws =>
        ws.map (fun w =>
          { text := w.text?.getD ""
            start? := some (w.start?.getD 0)
            end? := some (w.end?.getD 0)
            confidence? := some (w.confidence?.getD 1)
            speaker? := some (participantSpeaker w p)
            source := source
            detected_language? := some (w.detected_language?.getD "unknown") }))
  | .assembly ws =>
    ws.map (fun w =>
      { text := w.text?.getD ""
        start? := some (msToSeconds w.start?)
        end? := some (msToSeconds w.end?)
        confidence? := some (w.confidence?.getD 1)
        speaker? := some (w.speaker?.getD "Unknown")
        source := source })
  | .textOnly t =>
    (pySplitWS t).enum.map (fun (i, word) =>
      { text := word
        start? := some ((i : ℚ) * 0.5)
        end? := some (((i : ℚ) + 1) * 0.5)
        confidence? := some 1
        speaker? := some "Unknown"
        source := source
        estimated_timing := true })

/-- The short-word/punctuation allow-list of the confidence filter. -/
def shortWordAllowList : List String :=
  [".", ",", "!", "?", "的", "是", "了", "и", "в", "на", "с", "a", "the", "is", "to"]

/-- The confidence filter of `_create_natural_text_from_timeline`: keep a
word when its confidence (default 1.0) is at least 0.3, or its stripped
text has length at most 2, or it is in the allow-list. -/
def passesConfidenceFilter (w : TimelineWord) : Bool :=
  let text := pyStrip w.text
  confValue w ≥ 0.3 || text.length ≤ 2 || shortWordAllowList.contains text

/-- The word list the sentence assembly runs on: the filtered words, or all
words when filtering removed everything. -/
def assemblyWords (words : List TimelineWord) : List TimelineWord :=
  let filtered := words.filter passesConfidenceFilter
  if filtered.isEmpty then words else filtered

/-- Python `text in [".", ",", "!", "?", ":", ";", "。", "，", "！", "？", "：", "；"]`. -/
def isPunctToken (s : String) : Bool :=
  [".", ",", "!", "?", ":", ";", "。", "，", "！", "？", "：", "；"].contains s

/-- Python `text.startswith((".", ",", "!", "?", ":", ";", "。", "，", "！", "？", "：", "；"))`. -/
def startsWithPunct (s : String) : Bool :=
  match s.data with
  | [] => false
  | c :: _ =>
    c = '.' || c = ',' || c = '!' || c = '?' || c = ':' || c = ';' ||
    c = '。' || c = '，' || c = '！' || c = '？' || c = '：' || c = '；'

/-- Python `_is_chinese_character`: the text contains a CJK ideograph. -/
def isChineseText (s : String) : Bool := s.data.any isCJK

/-- Phase one of `_build_sentence_from_words`: build `text_parts` (kept
reversed): Chinese and ordinary tokens are appended, punctuation tokens are
glued onto the previous part (or open a part when none exists). -/
def buildTextParts : List String → List TimelineWord → List String
  | acc, [] => acc
  | acc, w :: ws =>
    let text := pyStrip w.text
    if text = "" then buildTextParts acc ws
    else if isChineseText text then buildTextParts (text :: acc) ws
    else if isPunctToken text then
      match acc with
      | [] => buildTextParts [text] ws
      | p :: rest => buildTextParts ((p ++ text) :: rest) ws
    else buildTextParts (text :: acc) ws

/-- Phase two of `_build_sentence_from_words`: join the parts — no space
around a Chinese part or after a Chinese predecessor, punctuation-initial
parts glue onto the previous result part, everything else gets a leading
space. `prev` is the preceding part, `acc` the reversed result parts. -/
def joinParts : String → List String → List String → List String
  | _, acc, [] => acc
  | prev, acc, part :: rest =>
    if isChineseText part || isChineseText prev then joinParts part (part :: acc) rest
    else if startsWithPunct part then
      match acc with
      | [] => joinParts part [part] rest
      | r :: racc => joinParts part ((r ++ part) :: racc) rest
    else joinParts part ((" " ++ part) :: acc) rest

/-- Python `_build_sentence_from_words`. -/
def build_sentence_from_words (words : List TimelineWord) : String :=
  let parts := (buildTextParts [] words).reverse
  match parts with
  | [] => ""
  | p :: rest => String.join (joinParts p [p] rest).reverse

/-- Python `current_sentence[-1].get("text", "").endswith((".", "!", "?", "。", "！", "？"))`. -/
def endsWithTerminal (s : String) : Bool :=
  match s.data.getLast? with
  | some c => isTermPunct c
  | none => false

/-- State of the sentence-assembly loop: finished sentences (in order), the
current sentence's words (in order), and `last_speaker`. -/
structure SentenceLoopState where
  sentences : List String
  current : List TimelineWord
  last_speaker : Option String
deriving Repr

/-- Flush `current_sentence`: append its built text when it strips
non-blank. -/
def flushSentence (st : SentenceLoopState) : List String :=
  let sentence_text := build_sentence_from_words st.current
  if pyStrip sentence_text = "" then st.sentences else st.sentences ++ [sentence_text]

/-- The `should_start_new_sentence and current_sentence` test of the
sentence-assembly loop: a truthy speaker change, a gap of more than two
seconds to the preceding word (`high_confidence_words[i-1]`), or terminal
punctuation on the last buffered word — and a non-empty buffer. -/
def shouldBreak (st : SentenceLoopState) (prev? : Option TimelineWord) (w : TimelineWord) :
    Bool :=
  let speakerChange :=
    match st.last_speaker with
    | some ls => ls ≠ "" && speakerValue w ≠ ls
    | none => false
  let gap :=
    match prev? with
    | some p => w.start?.getD 0 - p.end?.getD 0 > 2
    | none => false
  let punctBreak :=
    match st.current.getLast? with
    | some lastw => endsWithTerminal lastw.text
    | none => false
  (speakerChange || gap || punctBreak) && !st.current.isEmpty

/-- One iteration of the sentence-assembly loop of
`_create_natural_text_from_timeline`. Words with blank text are skipped
entirely; on a break the buffer is flushed; the word is appended to the
buffer and `last_speaker` updated. -/
def sentenceStep (st : SentenceLoopState) (prev? : Option TimelineWord) (w : TimelineWord) :
    SentenceLoopState :=
  if pyStrip w.text = "" then st
  else
    let st' :=
      if shouldBreak st prev? w then
        { st with sentences := flushSentence st, current := [] }
      else st
    { st' with current := st'.current ++ [w], last_speaker := some (speakerValue w) }

/-- Pair every element with its predecessor in the list. -/
def withPrev (l : List TimelineWord) : List (Option TimelineWord × TimelineWord) :=
  (none :: l.map some).zip l

/-- The sentence-assembly loop over a word list. -/
def runSentenceLoop (ws : List TimelineWord) : SentenceLoopState :=
  (withPrev ws).foldl (fun st pw => sentenceStep st pw.1 pw.2) ⟨[], [], none⟩

/-- Invariant of the sentence-assembly loop: some finished sentence strips
non-blank, or some buffered word's text strips non-blank. -/
def sentInv (st : SentenceLoopState) : Prop :=
  (∃ s ∈ st.sentences, hasNonWS s.data) ∨ (∃ w ∈ st.current, pyStrip w.text ≠ "")

/-- Python `" ".join(sentences)`. -/
def joinSpace : List String → String
  | [] => ""
  | [s] => s
  | s :: rest => s ++ " " ++ joinSpace rest

/-- Python `_create_natural_text_from_timeline`: confidence-filter the words (with
full fallback), assemble sentences, join, strip, and clean up. -/
def create_natural_text_from_timeline (words : List TimelineWord) : String :=
  if words.isEmpty then ""
  else
    let hcw := assemblyWords words
    let st := runSentenceLoop hcw
    let sentences := flushSentence st
    cleanUpNaturalText (pyStrip (joinSpace sentences))

/-- A speaker segment of `_group_words_by_speaker`. `endTime` models the
dict key `"end"`. -/
structure Segment where
  speaker : String
  start : ℚ
  endTime : ℚ
  words : List TimelineWord
  text : String
deriving DecidableEq, Repr

/-- The segment opened for word `w`. -/
def newSegment (w : TimelineWord) : Segment :=
  { speaker := speakerValue w
    start := w.start?.getD 0
    endTime := w.end?.getD 0
    words := [w]
    text := w.text }

/-- Adding a word to the running segment: the text is extended, the end is
overwritten by `word.get("end", current_segment["end"])`. -/
def addToSegment (seg : Segment) (w : TimelineWord) : Segment :=
  { seg with
    words := seg.words ++ [w]
    text := seg.text ++ " " ++ w.text
    endTime := w.end?.getD seg.endTime }

/-- Python `_group_words_by_speaker` as a recursion on the word list with the
running segment as state. -/
def groupRec : Option Segment → List TimelineWord → List Segment
  | none, [] => []
  | some seg, [] => [seg]
  | none, w :: ws => groupRec (some (newSegment w)) ws
  | some seg, w :: ws =>
    if seg.speaker ≠ speakerValue w then seg :: groupRec (some (newSegment w)) ws
    else groupRec (some (addToSegment seg w)) ws

/-- Python `_group_words_by_speaker`. -/
def group_words_by_speaker (words : List TimelineWord) : List Segment :=
  groupRec none words

/-- The words held by the running segment of the grouping loop. -/
def stateWords : Option Segment → List TimelineWord
  | none => []
  | some s => s.words

/-- An entry of the `approaches` dict as far as the timeline builder reads
it: `available` and `result`. -/
structure TimelineApproach where
  available : Bool
  result? : Option ProviderResult
deriving DecidableEq, Repr

/-- Python truthiness of a provider result (`not approach_data["result"]`):
an empty participant list is falsy, the dict shapes are non-empty dicts. -/
def providerTruthy : ProviderResult → Bool
  | .participants ps => !ps.isEmpty
  | .assembly _ => true
  | .textOnly _ => true

/-- The words one approach contributes to the unified timeline: none unless
it is available with a truthy result. -/
def approachWords (name : String) (d : TimelineApproach) : List TimelineWord :=
  match d.result? with
  | none => []
  | some r => if d.available && providerTruthy r then extract_words_with_timestamps r name else []

/-- The sort comparator of `all_words.sort(key=lambda w: w.get("start", 0))`. -/
def startLE (a b : TimelineWord) : Bool := startKey a ≤ startKey b

/-- The dict returned by `_create_unified_timeline_transcript`. -/
structure UnifiedTimelineResult where
  text : String
  unified_words : List TimelineWord
  speaker_segments : List Segment
  total_words : Nat
deriving Repr

/-- Python `_create_unified_timeline_transcript`: concatenate every available
approach's extracted words, stable-sort by start time (Python `list.sort`
is stable; `List.mergeSort` is the stable sort), then build the natural
text and the speaker segments from the sorted list. -/
def create_unified_timeline_transcript (approaches : List (String × TimelineApproach)) :
    UnifiedTimelineResult :=
  let all_words := (approaches.map (fun p => approachWords p.1 p.2)).flatten
  if all_words.isEmpty then ⟨"", [], [], 0⟩
  else
    let sorted := all_words.mergeSort startLE
    { text := create_natural_text_from_timeline sorted
      unified_words := sorted
      speaker_segments := group_words_by_speaker sorted
      total_words := sorted.length }

/-! ## Quality approach selector (`_select_best_approach_by_quality`) -/

/-- An `approaches` entry as read by `_select_best_approach_by_quality`:
availability, the extracted `text`, the quality score (key present only
when available, hence optional, read with default 0) and the
`is_multilingual` flag of its language analysis. -/
structure QualityApproach where
  available : Bool
  text : String
  quality_score? : Option ℚ
  is_multilingual : Bool
deriving DecidableEq, Repr

/-- The per-approach score of `_select_best_approach_by_quality`:
0 when unavailable; otherwise quality × 100, a length bonus capped at 50,
lesson-type bonuses/penalties, and a halving penalty under 20 characters. -/
def qualityApproachScore (name : String) (d : QualityApproach) (lesson_type : String) : ℚ :=
  if !d.available then 0
  else
    let quality_score := d.quality_score?.getD 0
    let text_length := d.text.length
    let score := quality_score * 100
    let score := score + min ((text_length : ℚ) / 10) 50
    let score :=
      if lesson_type = "chinese" || lesson_type = "english" || lesson_type = "spanish" then
        if name = "multilingual" then
          score + 50 + (if d.is_multilingual then 30 else 0)
        else if pyStartsWith name "specific_" then
          if quality_score < 0.8 then score - 20 else score
        else score
      else
        if name = "recall_api" then score + 10
        else if name = "direct_assemblyai" then score + 15
        else score
    if text_length < 20 then score * 0.5 else score

/-- The preference order of the all-zero fallback. -/
def fallbackOrder : List String := ["multilingual", "recall_api", "direct_assemblyai"]

/-- The fallback chain of `_select_best_approach_by_quality` when every
score is zero: the first available approach among the preference order,
else the first available approach, else `"recall_api"`. -/
def qualityFallback (approaches : List (String × QualityApproach)) : String :=
  match fallbackOrder.find? (fun f =>
      match approaches.lookup f with
      | some d => d.available
      | none => false) with
  | some f => f
  | none =>
    match approaches.find? (fun p => p.2.available) with
    | some p => p.1
    | none => "recall_api"

/-- The scores dict of `_select_best_approach_by_quality`. -/
def qualityScores (approaches : List (String × QualityApproach)) (lesson_type : String) :
    List (String × ℚ) :=
  approaches.map (fun p => (p.1, qualityApproachScore p.1 p.2 lesson_type))

/-- Python `_select_best_approach_by_quality`: score every approach, use the
fallback chain when there are no approaches or every score is zero,
otherwise `max(scores.keys(), key=lambda k: scores[k])`. -/
def select_best_approach_by_quality (approaches : List (String × QualityApproach))
    (lesson_type : String) : String :=
  match qualityScores approaches lesson_type with
  | [] => qualityFallback approaches
  | p :: rest =>
    if (p :: rest).all (fun q => q.2 = 0) then qualityFallback approaches
    else pyMaxKeyAux p rest

/-! ## Concrete inputs used by counterexamples and witnesses -/

/-- A word of speaker `A` ending at 5. -/
def exWordA : TimelineWord :=
  { text := "a", start? := some 0, end? := some 5, confidence? := some 1,
    speaker? := some "A", source := "s" }

/-- A later-starting word of speaker `A` ending earlier, at 3. -/
def exWordB : TimelineWord :=
  { text := "b", start? := some 1, end? := some 3, confidence? := some 1,
    speaker? := some "A", source := "s" }

/-- Two words of one speaker, sorted by start time, whose end times
decrease: the first word ends at 5, the second at 3. -/
def exOverlapWords : List TimelineWord := [exWordA, exWordB]

/-- The single segment the grouping produces for `exOverlapWords`. -/
def exOverlapSegment : Segment :=
  { speaker := "A", start := 0, endTime := 3, words := exOverlapWords, text := "a b" }

/-- A Recall-shaped provider result whose single word carries a
millisecond-scale (very large) timestamp. -/
def exRecallLargeTs : ProviderResult :=
  .participants [{ speaker? := some "A",
                   words? := some [{ text? := some "hi",
                                     start? := some 3600000, end? := some 3600500 }] }]

/-- A word dict with empty text. -/
def exBlankW : TimelineWord :=
  { text := "", start? := some 0, end? := some 0, confidence? := some 1,
    speaker? := some "A", source := "s" }

/-- A non-empty word list whose only word has empty text. -/
def exEmptyTextWord : List TimelineWord := [exBlankW]

/-- An ordinary high-confidence word. -/
def exHelloW : TimelineWord :=
  { text := "Hello", start? := some 0, end? := some 1, confidence? := some 1,
    speaker? := some "A", source := "s" }

/-- A word list with one ordinary high-confidence word. -/
def exHelloWord : List TimelineWord := [exHelloW]

/-- A word dict that carries no confidence key and a long junk text. -/
def exNoConfidenceWord : TimelineWord :=
  { text := "qwertyuiop", start? := some 0, end? := some 1, confidence? := none,
    speaker? := some "A", source := "s" }

/-- Two available approaches with identical nonzero composite scores for a
chinese lesson, inserted with `direct_assemblyai` first. -/
def exTieDirect : QualityApproach :=
  { available := true, text := "aaaaaaaaaaaaaaaaaaaaaaaaaaaaaa", quality_score? := some 0.5,
    is_multilingual := false }

/-- The tied `recall_api` entry of the insertion-order counterexample. -/
def exTieRecall : QualityApproach :=
  { available := true, text := "bbbbbbbbbbbbbbbbbbbbbbbbbbbbbb", quality_score? := some 0.5,
    is_multilingual := false }

/-- The approaches dict of the insertion-order counterexample. -/
def exTieApproaches : List (String × QualityApproach) :=
  [("direct_assemblyai", exTieDirect), ("recall_api", exTieRecall)]

/-- A poor-quality candidate whose text contains Cyrillic. -/
def exCyrCandidate : ApproachAnalysis :=
  { text := "Привет, сегодня проходим 你好", quality_score := 0.1,
    confidence := 0.1, text_length := 28, is_multilingual := true }

/-- A perfect-quality candidate without any Cyrillic character. -/
def exPureChineseCandidate : ApproachAnalysis :=
  { text := "你好 再见", quality_score := 1, confidence := 1,
    text_length := 5, is_multilingual := false }

/-- Two analysed candidates of a chinese lesson: one with Cyrillic text and
poor quality, one without Cyrillic and perfect quality. -/
def exChineseCandidates : List (String × ApproachAnalysis) :=
  [("multilingual", exCyrCandidate), ("specific_zh", exPureChineseCandidate)]

end Kristy

namespace Kristy

/-! ## Claim theorems and supporting lemmas -/

/-- Claim **C3.** For every input whose trimmed length is below the 10-character
minimum (in particular the empty string and `"hi"`), `detect_language_mix`
returns the canonical empty analysis (confidence 0, lesson type, primary
language `"unknown"`, no detected languages, not multilingual), for every
behaviour of the external statistical detector; the embedding is total, so
no error is possible. -/
theorem detect_short_input_is_empty_result (libDetect : String → LibraryDetection)
    (text : String) (h : text.length = 0 ∨ (pyStrip text).length < minTextLength) :
    detect_language_mix libDetect text = emptyDetectionResult := by
  unfold detect_language_mix
  rw [if_pos h]

/-- Witness for `detect_short_input_is_empty_result` at `"hi"`. -/
theorem detect_short_input_is_empty_result_witness :
    detect_language_mix (fun _ => ⟨none, [], false, none⟩) "hi" = emptyDetectionResult :=
  detect_short_input_is_empty_result (fun _ => ⟨none, [], false, none⟩) "hi" (by decide)

/-- Claim **C2.** For every analysis and expected lesson type, if the analysis
confidence lies in `[0, 1]` then `calculate_quality_score` — the sum of
`confidence * 0.4`, `+0.3` on lesson-type match, `+0.2` for a multilingual
chinese/english lesson, `+0.1` on language intersection, clamped by
`min(·, 1)` — lies in `[0, 1]`. -/
theorem calculate_quality_score_in_unit_interval (d : DetectionResult) (lt : String)
    (h0 : 0 ≤ d.confidence) (h1 : d.confidence ≤ 1) :
    0 ≤ calculate_quality_score d lt ∧ calculate_quality_score d lt ≤ 1 := by
  have h4 : 0 ≤ d.confidence * 0.4 := mul_nonneg h0 (by norm_num)
  unfold calculate_quality_score
  refine ⟨?_, min_le_right _ _⟩
  refine le_min ?_ (by norm_num)
  split_ifs <;> linarith

/-- Witness for `calculate_quality_score_in_unit_interval` at the canonical
empty analysis and lesson type `"chinese"`. -/
theorem calculate_quality_score_in_unit_interval_witness :
    0 ≤ calculate_quality_score emptyDetectionResult "chinese" ∧
    calculate_quality_score emptyDetectionResult "chinese" ≤ 1 :=
  calculate_quality_score_in_unit_interval emptyDetectionResult "chinese"
    (by decide) (by decide)

/-- Claim **C1.** For a `"chinese"` lesson the comprehensive selector scores any
candidate containing a Cyrillic character with the fixed 1000 and any
candidate without one with the fixed 10, so the former always outscores the
latter regardless of quality score, confidence or length. -/
theorem chinese_lesson_cyrillic_dominates (results : List (String × ApproachAnalysis))
    (na nb : String) (a b : ApproachAnalysis)
    (ha : (na, a) ∈ results) (hb : (nb, b) ∈ results)
    (hca : containsRussian a.text = true) (hcb : containsRussian b.text = false) :
    (na, (1000 : ℚ)) ∈ comprehensiveScores results "chinese" ∧
    (nb, (10 : ℚ)) ∈ comprehensiveScores results "chinese" ∧ (10 : ℚ) < 1000 := by
  unfold comprehensiveScores
  rw [if_pos rfl]
  refine ⟨?_, ?_, by norm_num⟩
  · exact List.mem_map.mpr ⟨(na, a), ha, by simp [hca]⟩
  · exact List.mem_map.mpr ⟨(nb, b), hb, by simp [hcb]⟩

/-- Witness for `chinese_lesson_cyrillic_dominates`: the low-quality
Cyrillic candidate scores 1000, the perfect-quality pure-Chinese candidate
scores 10. -/
theorem chinese_lesson_cyrillic_dominates_witness :
    ("multilingual", (1000 : ℚ)) ∈ comprehensiveScores exChineseCandidates "chinese" ∧
    ("specific_zh", (10 : ℚ)) ∈ comprehensiveScores exChineseCandidates "chinese" ∧
    (10 : ℚ) < 1000 :=
  chinese_lesson_cyrillic_dominates exChineseCandidates "multilingual" "specific_zh"
    exCyrCandidate exPureChineseCandidate (by simp [exChineseCandidates])
    (by simp [exChineseCandidates]) (by decide) (by decide)

/-- Claim **C10.** A timeline word carrying no confidence key is read back as
confidence 1.0 and therefore always passes the confidence filter of the
natural-text reconstruction, whatever its text. -/
theorem missing_confidence_defaults_to_one (w : TimelineWord) (h : w.confidence? = none) :
    confValue w = 1 ∧ passesConfidenceFilter w = true := by
  have hc : confValue w = 1 := by simp [confValue, h]
  refine ⟨hc, ?_⟩
  unfold passesConfidenceFilter
  rw [hc]
  have h3 : decide ((1 : ℚ) ≥ 0.3) = true := by norm_num
  simp [h3]

/-- Witness for `missing_confidence_defaults_to_one` at a long junk word
without a confidence key. -/
theorem missing_confidence_defaults_to_one_witness :
    confValue exNoConfidenceWord = 1 ∧ passesConfidenceFilter exNoConfidenceWord = true :=
  missing_confidence_defaults_to_one exNoConfidenceWord rfl

/-- Claim **C5 (failing input).** The claimed idempotence of the text clean-up
fails: `_clean_up_natural_text` maps `"a.ıb"` to `"A.Ib"` (the dotless `ı`
is outside the `[A-Za-zА-Яа-я]` spacing class, but capitalisation turns it
into `I`, which is inside), and a second application inserts a space,
giving `"A. Ib"`. -/
theorem cleanup_not_idempotent_on_dotless_i :
    cleanUpNaturalText "a.ıb" = "A.Ib" ∧ cleanUpNaturalText "A.Ib" = "A. Ib" ∧
    cleanUpNaturalText (cleanUpNaturalText "a.ıb") ≠ cleanUpNaturalText "a.ıb" := by
  refine ⟨by decide, by decide, by decide⟩

/-- Claim **C6 (counterexample).** A Recall-shaped (per-participant) word with a
very large, millisecond-scale timestamp is passed through unchanged — it is
not divided by 1000 — so no magnitude-based unit detection happens. -/
theorem recall_large_timestamp_not_divided :
    (extract_words_with_timestamps exRecallLargeTs "recall_api").map startKey = [3600000] ∧
    (3600000 : ℚ) / 1000 = 3600 ∧ (3600000 : ℚ) ≠ 3600 := by
  refine ⟨by decide, by norm_num, by norm_num⟩

/-- Claim **C6 (amended).** Unit normalisation is per shape, not detected from
magnitude: every flat-shape (AssemblyAI) timestamp is divided by 1000
(`msToSeconds`, with falsy values mapped to 0) regardless of its size,
and every per-participant (Recall) timestamp is passed through unchanged. -/
theorem timestamp_normalisation_is_per_shape :
    (∀ (ws : List RawWord) (src : String),
      (extract_words_with_timestamps (.assembly ws) src).map startKey
          = ws.map (fun w => msToSeconds w.start?) ∧
      (extract_words_with_timestamps (.assembly ws) src).map (fun w => w.end?.getD 0)
          = ws.map (fun w => msToSeconds w.end?)) ∧
    (∀ (ps : List Participant) (src : String),
      (extract_words_with_timestamps (.participants ps) src).map startKey
          = ps.flatMap (fun p => (p.words?.getD []).map (fun w => w.start?.getD 0)) ∧
      (extract_words_with_timestamps (.participants ps) src).map (fun w => w.end?.getD 0)
          = ps.flatMap (fun p => (p.words?.getD []).map (fun w => w.end?.getD 0))) := by
  constructor
  · intro ws src
    constructor <;>
      simp [extract_words_with_timestamps, startKey, List.map_map, Function.comp]
  · intro ps src
    induction ps with
    | nil => simp [extract_words_with_timestamps]
    | cons p ps ih =>
      have h1 := ih.1
      have h2 := ih.2
      constructor <;>
        · simp only [extract_words_with_timestamps, List.flatMap_cons, List.map_append] at *
          cases hw : p.words? <;>
            simp_all [startKey, List.map_map, Function.comp]

/-! ### Speaker grouping (C7) -/

theorem groupRec_flatten (ws : List TimelineWord) :
    ∀ o : Option Segment, ((groupRec o ws).map Segment.words).flatten = stateWords o ++ ws := by
  induction ws with
  | nil => intro o; cases o <;> simp [groupRec, stateWords]
  | cons w ws ih =>
    intro o
    cases o with
    | none =>
      have := ih (some (newSegment w))
      simp only [groupRec, stateWords, newSegment] at this ⊢
      simpa using this
    | some seg =>
      by_cases h : seg.speaker ≠ speakerValue w
      · have H := ih (some (newSegment w))
        simp only [stateWords, newSegment] at H
        simp [groupRec, h, newSegment, stateWords, H]
      · have H := ih (some (addToSegment seg w))
        simp only [stateWords, addToSegment] at H
        simp [groupRec, h, addToSegment, stateWords, H]

theorem groupRec_head_speaker (ws : List TimelineWord) :
    ∀ seg : Segment, ((groupRec (some seg) ws).head?).map Segment.speaker = some seg.speaker := by
  induction ws with
  | nil => intro seg; simp [groupRec]
  | cons w ws ih =>
    intro seg
    by_cases h : seg.speaker ≠ speakerValue w
    · simp [groupRec, h]
    · have H := ih (addToSegment seg w)
      simpa [groupRec, h, addToSegment] using H

theorem groupRec_chain (ws : List TimelineWord) :
    ∀ o : Option Segment, List.Chain' (fun a b : Segment => a.speaker ≠ b.speaker) (groupRec o ws) := by
  induction ws with
  | nil => intro o; cases o <;> simp [groupRec]
  | cons w ws ih =>
    intro o
    cases o with
    | none => simpa [groupRec] using ih (some (newSegment w))
    | some seg =>
      by_cases h : seg.speaker ≠ speakerValue w
      · simp only [groupRec, if_pos h]
        rw [List.chain'_cons']
        refine ⟨?_, ih (some (newSegment w))⟩
        intro b hb
        have hh := groupRec_head_speaker ws (newSegment w)
        rw [Option.mem_def] at hb
        rw [hb] at hh
        have hb' : b.speaker = speakerValue w := by simpa [newSegment] using hh
        rw [hb']
        exact h
      · simpa [groupRec, h] using ih (some (addToSegment seg w))

theorem groupRec_all (P : Segment → Prop)
    (hnew : ∀ w, P (newSegment w))
    (hadd : ∀ seg w, P seg → seg.speaker = speakerValue w → P (addToSegment seg w)) :
    ∀ (ws : List TimelineWord) (o : Option Segment), (∀ s, o = some s → P s) →
      ∀ s ∈ groupRec o ws, P s := by
  intro ws
  induction ws with
  | nil =>
    intro o ho s hs
    cases o with
    | none => simp [groupRec] at hs
    | some seg =>
      simp only [groupRec, List.mem_singleton] at hs
      exact hs ▸ ho seg rfl
  | cons w ws ih =>
    intro o ho s hs
    cases o with
    | none =>
      simp only [groupRec] at hs
      exact ih (some (newSegment w)) (fun s' h' => by cases h'; exact hnew w) s hs
    | some seg =>
      by_cases h : seg.speaker ≠ speakerValue w
      · simp only [groupRec, if_pos h, List.mem_cons] at hs
        rcases hs with rfl | hs
        · exact ho s rfl
        · exact ih (some (newSegment w)) (fun s' h' => by cases h'; exact hnew w) s hs
      · simp only [groupRec, if_neg h] at hs
        exact ih (some (addToSegment seg w))
          (fun s' h' => by cases h'; exact hadd seg w (ho seg rfl) (not_not.mp h)) s hs

/-- Claim **C7 (amended).** For every word list, the speaker grouping
concatenates back to the input (boundaries only), adjacent segments carry
different speakers (a new segment starts exactly at a speaker change),
every word of a segment carries the segment's speaker, each segment's
`start` is its first word's start; but each segment's `end` is the
left-to-right fold overwriting it with each word's end value (the last
word's end) — not the running maximum of the claim. -/
theorem group_words_by_speaker_characterization (ws : List TimelineWord) :
    ((group_words_by_speaker ws).map Segment.words).flatten = ws ∧
    List.Chain' (fun a b : Segment => a.speaker ≠ b.speaker) (group_words_by_speaker ws) ∧
    (∀ s ∈ group_words_by_speaker ws, ∀ w ∈ s.words, speakerValue w = s.speaker) ∧
    (∀ s ∈ group_words_by_speaker ws,
      ∃ w0 t, s.words = w0 :: t ∧ s.start = w0.start?.getD 0) ∧
    (∀ s ∈ group_words_by_speaker ws,
      s.endTime = s.words.foldl (fun a w => w.end?.getD a) 0) := by
  refine ⟨?_, groupRec_chain ws none, ?_, ?_, ?_⟩
  · simpa [stateWords] using groupRec_flatten ws none
  · exact groupRec_all (fun s => ∀ w ∈ s.words, speakerValue w = s.speaker)
      (by intro w; simp [newSegment])
      (by
        intro seg w hP hsp w' hw'
        simp only [addToSegment, List.mem_append, List.mem_singleton] at hw'
        rcases hw' with hw' | rfl
        · exact hP w' hw'
        · exact hsp.symm)
      ws none (by simp)
  · exact groupRec_all (fun s => ∃ w0 t, s.words = w0 :: t ∧ s.start = w0.start?.getD 0)
      (by intro w; exact ⟨w, [], rfl, rfl⟩)
      (by
        intro seg w hP _
        obtain ⟨w0, t, hw, hst⟩ := hP
        exact ⟨w0, t ++ [w], by simp [addToSegment, hw], hst⟩)
      ws none (by simp)
  · exact groupRec_all (fun s => s.endTime = s.words.foldl (fun a w => w.end?.getD a) 0)
      (by intro w; simp [newSegment])
      (by
        intro seg w hP _
        simp [addToSegment, List.foldl_append, ← hP])
      ws none (by simp)

/-- Witness for `group_words_by_speaker_characterization`: applied to the
concrete overlapping-words list, discharging the membership hypotheses. -/
theorem group_words_by_speaker_characterization_witness :
    speakerValue exWordA = exOverlapSegment.speaker :=
  (group_words_by_speaker_characterization exOverlapWords).2.2.1 exOverlapSegment
    (by
      have h : group_words_by_speaker exOverlapWords = [exOverlapSegment] := by decide
      rw [h]
      exact List.mem_singleton_self _)
    exWordA (by simp [exOverlapSegment, exOverlapWords])

/-- Claim **C7 (counterexample).** On the sorted one-speaker list whose word ends
are 5 then 3, the produced segment ends at 3 (the last word's end), not at
the running maximum 5. -/
theorem segment_end_is_overwritten_not_max :
    (group_words_by_speaker exOverlapWords).map Segment.endTime = [(3 : ℚ)] ∧
    (exOverlapWords.map (fun w => w.end?.getD 0)).foldl max 0 = 5 ∧
    ((3 : ℚ) = 5 → False) := by
  refine ⟨by decide, by decide, by norm_num⟩

/-! ### Unified timeline (C4) -/

theorem startLE_trans (a b c : TimelineWord) (hab : startLE a b) (hbc : startLE b c) :
    startLE a c := by
  simp only [startLE, decide_eq_true_eq] at *
  exact le_trans hab hbc

theorem startLE_total (a b : TimelineWord) : startLE a b || startLE b a := by
  simp only [startLE, Bool.or_eq_true, decide_eq_true_eq]
  exact le_total _ _

theorem mergeSort_startKey_filter (l : List TimelineWord) (q : ℚ) :
    (l.mergeSort startLE).filter (fun w => startKey w == q)
      = l.filter (fun w => startKey w == q) := by
  have hpair : (l.filter (fun w => startKey w == q)).Pairwise (fun a b => startLE a b) := by
    apply List.pairwise_of_forall_mem_list
    intro a ha b hb
    have ha' : startKey a = q := by
      simpa using (List.mem_filter.mp ha).2
    have hb' : startKey b = q := by
      simpa using (List.mem_filter.mp hb).2
    simp [startLE, ha', hb']
  have h1 : List.Sublist (l.filter (fun w => startKey w == q)) (l.mergeSort startLE) :=
    List.sublist_mergeSort startLE_trans startLE_total hpair (List.filter_sublist l)
  have h2 : (l.filter (fun w => startKey w == q)).filter (fun w => startKey w == q)
      = l.filter (fun w => startKey w == q) :=
    List.filter_eq_self.mpr (fun a ha => (List.mem_filter.mp ha).2)
  have h3 : List.Sublist (l.filter (fun w => startKey w == q))
      ((l.mergeSort startLE).filter (fun w => startKey w == q)) := by
    have := h1.filter (fun w => startKey w == q)
    rwa [h2] at this
  have hperm : List.Perm ((l.mergeSort startLE).filter (fun w => startKey w == q))
      (l.filter (fun w => startKey w == q)) :=
    (l.mergeSort_perm startLE).filter _
  exact (h3.eq_of_length hperm.length_eq.symm).symm

/-- Claim **C4.** For every approaches dict, the unified timeline's word list (a)
has as many words as all available (truthy-result) approaches contribute
together — no word is lost in the merge, and the confidence filter plays no
part in this list — (b) is sorted by ascending start key, and (c) is the
stable permutation of the concatenation: for every start time, the words
with that start appear exactly in concatenation order (ties keep the
original candidate order). -/
theorem unified_timeline_characterization (approaches : List (String × TimelineApproach)) :
    (create_unified_timeline_transcript approaches).unified_words.length
        = ((approaches.map (fun p => approachWords p.1 p.2)).map List.length).sum ∧
    List.Pairwise (fun a b => startKey a ≤ startKey b)
      (create_unified_timeline_transcript approaches).unified_words ∧
    (∀ q : ℚ,
      (create_unified_timeline_transcript approaches).unified_words.filter
          (fun w => startKey w == q)
        = ((approaches.map (fun p => approachWords p.1 p.2)).flatten).filter
            (fun w => startKey w == q)) := by
  simp only [create_unified_timeline_transcript]
  by_cases hE : ((approaches.map (fun p => approachWords p.1 p.2)).flatten).isEmpty
  · rw [if_pos hE]
    have hnil : (approaches.map (fun p => approachWords p.1 p.2)).flatten = [] :=
      List.isEmpty_iff.mp hE
    refine ⟨?_, by simp, ?_⟩
    · have := congrArg List.length hnil
      simp only [List.length_flatten] at this
      simpa using this.symm
    · intro q
      simp [hnil]
  · rw [if_neg hE]
    refine ⟨?_, ?_, ?_⟩
    · simp [List.length_mergeSort]
    · have hs := List.sorted_mergeSort startLE_trans startLE_total
        ((approaches.map (fun p => approachWords p.1 p.2)).flatten)
      exact hs.imp (fun h => by simpa [startLE] using h)
    · intro q
      exact mergeSort_startKey_filter _ q

/-! ### Quality approach selector (C9) -/

theorem pyMaxKeyAux_first_max (l : List (String × ℚ)) :
    ∀ best : String × ℚ,
      ∃ v, (∀ p ∈ best :: l, p.2 ≤ v) ∧
        (best :: l).find? (fun p => p.2 == v) = some (pyMaxKeyAux best l, v) := by
  induction l with
  | nil =>
    intro best
    refine ⟨best.2, by simp, ?_⟩
    simp [pyMaxKeyAux, List.find?_cons]
  | cons p rest ih =>
    intro best
    by_cases h : p.2 > best.2
    · obtain ⟨v, hall, hfind⟩ := ih p
      have hpv : p.2 ≤ v := hall p (List.mem_cons_self p rest)
      have hbv : best.2 < v := lt_of_lt_of_le h hpv
      refine ⟨v, ?_, ?_⟩
      · intro q hq
        rcases List.mem_cons.mp hq with rfl | hq
        · exact le_of_lt hbv
        · exact hall q hq
      · rw [List.find?_cons_of_neg _ (by simp [ne_of_lt hbv]), hfind]
        simp [pyMaxKeyAux, h]
    · obtain ⟨v, hall, hfind⟩ := ih best
      have hbv : best.2 ≤ v := hall best (List.mem_cons_self best rest)
      have hpv : p.2 ≤ v := le_trans (not_lt.mp h) hbv
      refine ⟨v, ?_, ?_⟩
      · intro q hq
        rcases List.mem_cons.mp hq with rfl | hq
        · exact hbv
        · rcases List.mem_cons.mp hq with rfl | hq
          · exact hpv
          · exact hall q (List.mem_cons_of_mem best hq)
      · by_cases hb : best.2 = v
        · have h1 : (best :: p :: rest).find? (fun q => q.2 == v) = some best :=
            List.find?_cons_of_pos _ (by simp [hb])
          have h2 : (best :: rest).find? (fun q => q.2 == v) = some best :=
            List.find?_cons_of_pos _ (by simp [hb])
          rw [h2] at hfind
          rw [h1, hfind]
          simp [pyMaxKeyAux, h]
        · have hblt : best.2 < v := lt_of_le_of_ne hbv hb
          have hplt : p.2 < v := lt_of_le_of_lt (not_lt.mp h) hblt
          rw [List.find?_cons_of_neg _ (by simp [ne_of_lt hblt]),
              List.find?_cons_of_neg _ (by simp [ne_of_lt hplt])]
          rw [List.find?_cons_of_neg _ (by simp [ne_of_lt hblt])] at hfind
          rw [hfind]
          simp [pyMaxKeyAux, h]

theorem qualityScores_all_zero_iff (apps : List (String × QualityApproach)) (lt : String) :
    (∀ p ∈ qualityScores apps lt, p.2 = 0) ↔
      (∀ p ∈ apps, qualityApproachScore p.1 p.2 lt = 0) := by
  constructor
  · intro h p hp
    exact h (p.1, qualityApproachScore p.1 p.2 lt) (List.mem_map.mpr ⟨p, hp, rfl⟩)
  · intro h q hq
    obtain ⟨p, hp, rfl⟩ := List.mem_map.mp hq
    exact h p hp

/-- Claim **C9 (amended).** An unavailable approach always scores 0; when some
approach scores nonzero the selector returns the first key attaining the
maximal score in dict-insertion order (Python `max`), not the fixed
preference order; the preference-order fallback (then first-available,
then `"recall_api"`) applies only when every score is zero. -/
theorem select_best_by_quality_characterization :
    (∀ (apps : List (String × QualityApproach)) (lt n : String) (d : QualityApproach),
      (n, d) ∈ apps → d.available = false → qualityApproachScore n d lt = 0) ∧
    (∀ (apps : List (String × QualityApproach)) (lt : String),
      ¬(∀ p ∈ apps, qualityApproachScore p.1 p.2 lt = 0) →
      ∃ v, (∀ p ∈ qualityScores apps lt, p.2 ≤ v) ∧
        (qualityScores apps lt).find? (fun p => p.2 == v)
          = some (select_best_approach_by_quality apps lt, v)) ∧
    (∀ (apps : List (String × QualityApproach)) (lt : String),
      (∀ p ∈ apps, qualityApproachScore p.1 p.2 lt = 0) →
      select_best_approach_by_quality apps lt = qualityFallback apps) := by
  refine ⟨?_, ?_, ?_⟩
  · intro apps lt n d _ hav
    unfold qualityApproachScore
    simp [hav]
  · intro apps lt hne
    have hz : ¬(∀ p ∈ qualityScores apps lt, p.2 = 0) := by
      rw [qualityScores_all_zero_iff]; exact hne
    cases hsc : qualityScores apps lt with
    | nil => exact absurd (by intro p hp; rw [hsc] at hp; cases hp) hz
    | cons p rest =>
      rw [hsc] at hz
      have hall : ¬(((p :: rest).all fun q => decide (q.2 = 0)) = true) := by
        intro hcon
        exact hz (by
          intro q hq
          exact of_decide_eq_true (List.all_eq_true.mp hcon q hq))
      have hsel : select_best_approach_by_quality apps lt = pyMaxKeyAux p rest := by
        unfold select_best_approach_by_quality
        rw [hsc]
        show (if ((p :: rest).all fun q => decide (q.2 = 0)) = true then qualityFallback apps
              else pyMaxKeyAux p rest) = pyMaxKeyAux p rest
        rw [if_neg hall]
      obtain ⟨v, h1, h2⟩ := pyMaxKeyAux_first_max rest p
      rw [hsel]
      exact ⟨v, h1, h2⟩
  · intro apps lt hz
    cases hsc : qualityScores apps lt with
    | nil =>
      unfold select_best_approach_by_quality
      rw [hsc]
    | cons p rest =>
      have hall : (((p :: rest).all fun q => decide (q.2 = 0)) = true) := by
        rw [List.all_eq_true]
        intro q hq
        exact decide_eq_true
          ((qualityScores_all_zero_iff apps lt).mpr hz q (by rw [hsc]; exact hq))
      unfold select_best_approach_by_quality
      rw [hsc]
      show (if ((p :: rest).all fun q => decide (q.2 = 0)) = true then qualityFallback apps
            else pyMaxKeyAux p rest) = qualityFallback apps
      rw [if_pos hall]

/-- Witness for `select_best_by_quality_characterization`: the
unavailable-scores-zero conjunct at a concrete unavailable approach. -/
theorem select_best_by_quality_characterization_witness :
    qualityApproachScore "x" ⟨false, "hello", some 1, false⟩ "chinese" = 0 :=
  select_best_by_quality_characterization.1 [("x", ⟨false, "hello", some 1, false⟩)]
    "chinese" "x" ⟨false, "hello", some 1, false⟩ (List.mem_singleton_self _) rfl

/-- Claim **C9 (counterexample).** Two available approaches tie at the nonzero
score 53 for a chinese lesson; the selector returns `"direct_assemblyai"`,
the first key in dict order, although the claimed preference order
`["multilingual", "recall_api", "direct_assemblyai"]` puts `"recall_api"`
first. -/
theorem quality_tie_broken_by_insertion_order :
    select_best_approach_by_quality exTieApproaches "chinese" = "direct_assemblyai" ∧
    qualityApproachScore "direct_assemblyai" exTieDirect "chinese" = 53 ∧
    qualityApproachScore "recall_api" exTieRecall "chinese" = 53 ∧
    (53 : ℚ) ≠ 0 ∧
    fallbackOrder = ["multilingual", "recall_api", "direct_assemblyai"] := by
  have h30a : ("aaaaaaaaaaaaaaaaaaaaaaaaaaaaaa" : String).length = 30 := by decide
  have h30b : ("bbbbbbbbbbbbbbbbbbbbbbbbbbbbbb" : String).length = 30 := by decide
  have hd : qualityApproachScore "direct_assemblyai" exTieDirect "chinese" = 53 := by
    unfold qualityApproachScore exTieDirect
    norm_num [h30a, min_def]
    decide
  have hr : qualityApproachScore "recall_api" exTieRecall "chinese" = 53 := by
    unfold qualityApproachScore exTieRecall
    norm_num [h30b, min_def]
    decide
  have hs : qualityScores exTieApproaches "chinese"
      = [("direct_assemblyai", (53 : ℚ)), ("recall_api", 53)] := by
    simp [qualityScores, exTieApproaches, hd, hr]
  have hsel : select_best_approach_by_quality exTieApproaches "chinese" = "direct_assemblyai" := by
    unfold select_best_approach_by_quality
    rw [hs]
    decide
  exact ⟨hsel, hd, hr, by norm_num, rfl⟩

/-! ### Non-whitespace preservation through the clean-up pipeline (C8) -/

theorem mem_dropWhile_of_nonspace {c : Char} {l : List Char}
    (hc : c ∈ l) (hns : pyIsSpace c = false) : c ∈ l.dropWhile pyIsSpace := by
  have hsplit := List.takeWhile_append_dropWhile (p := pyIsSpace) (l := l)
  rw [← hsplit] at hc
  rcases List.mem_append.mp hc with h | h
  · exact absurd (List.mem_takeWhile_imp h) (by simp [hns])
  · exact h

theorem mem_rstripL {c : Char} (hns : pyIsSpace c = false) :
    ∀ {l : List Char}, c ∈ l → c ∈ rstripL l := by
  intro l
  induction l with
  | nil => intro h; cases h
  | cons x xs ih =>
    intro h
    unfold rstripL
    by_cases hb : ((rstripL xs).isEmpty && pyIsSpace x) = true
    · rcases List.mem_cons.mp h with rfl | h
      · rw [(Bool.and_eq_true _ _).mp hb |>.2] at hns; cases hns
      · have := ih h
        rw [List.isEmpty_iff.mp ((Bool.and_eq_true _ _).mp hb).1] at this
        cases this
    · rw [if_neg hb]
      rcases List.mem_cons.mp h with rfl | h
      · exact List.mem_cons_self _ _
      · exact List.mem_cons_of_mem _ (ih h)

theorem hasNonWS_pyStripL {l : List Char} (h : hasNonWS l) : hasNonWS (pyStripL l) := by
  obtain ⟨c, hc, hns⟩ := h
  exact ⟨c, mem_rstripL hns (mem_dropWhile_of_nonspace hc hns), hns⟩

theorem pyStripL_nil_of_allspace {l : List Char} (h : ∀ c ∈ l, pyIsSpace c = true) :
    pyStripL l = [] := by
  unfold pyStripL
  rw [List.dropWhile_eq_nil_iff.mpr (fun c hc => h c hc)]
  rfl

theorem hasNonWS_iff_stripL_ne_nil (l : List Char) : hasNonWS l ↔ pyStripL l ≠ [] := by
  constructor
  · intro h hnil
    obtain ⟨c, hc, hns⟩ := hasNonWS_pyStripL h
    rw [hnil] at hc
    cases hc
  · intro h
    by_contra hall
    refine h (pyStripL_nil_of_allspace ?_)
    intro c hc
    by_contra hcs
    exact hall ⟨c, hc, by simpa using hcs⟩

theorem rstripL_getLast_nonspace :
    ∀ {m : List Char} {c : Char}, (rstripL m).getLast? = some c → pyIsSpace c = false := by
  intro m
  induction m with
  | nil => intro c h; cases h
  | cons x xs ih =>
    intro c h
    unfold rstripL at h
    by_cases hb : ((rstripL xs).isEmpty && pyIsSpace x) = true
    · rw [if_pos hb] at h; cases h
    · rw [if_neg hb] at h
      cases he : rstripL xs with
      | nil =>
        rw [he] at h
        simp only [List.getLast?_singleton, Option.some.injEq] at h
        have hne : ¬((rstripL xs).isEmpty = true ∧ pyIsSpace x = true) := by
          intro hcon
          exact hb ((Bool.and_eq_true _ _).mpr hcon)
        have hxs : pyIsSpace x = false := by
          have := (not_and.mp hne) (by simp [he])
          simpa using this
        rw [← h]
        exact hxs
      | cons y ys =>
        rw [he] at h
        rw [List.getLast?_cons_cons] at h
        exact ih (he ▸ h)

theorem dropWhile_head_false {p : Char → Bool} :
    ∀ (l : List Char) (h : Char) (t : List Char), l.dropWhile p = h :: t → p h = false := by
  intro l
  induction l with
  | nil => intro h t he; cases he
  | cons x xs ih =>
    intro h t he
    rw [List.dropWhile_cons] at he
    by_cases hp : p x = true
    · rw [if_pos hp] at he
      exact ih h t he
    · rw [if_neg hp] at he
      cases he
      simpa using hp

theorem rstripL_eq_cons : ∀ {m : List Char} {h : Char} {t : List Char},
    rstripL m = h :: t → ∃ t', m = h :: t' := by
  intro m h t he
  cases m with
  | nil => cases he
  | cons x xs =>
    unfold rstripL at he
    by_cases hb : ((rstripL xs).isEmpty && pyIsSpace x) = true
    · rw [if_pos hb] at he; cases he
    · rw [if_neg hb] at he
      cases he
      exact ⟨xs, rfl⟩

theorem pyStripL_head_nonspace {l : List Char} {h : Char} {t : List Char}
    (he : pyStripL l = h :: t) : pyIsSpace h = false := by
  unfold pyStripL at he
  obtain ⟨t', ht'⟩ := rstripL_eq_cons he
  exact dropWhile_head_false l h t' ht'

set_option maxRecDepth 40000 in
theorem pyUpperChar_small : ∀ n : Nat, n < 1120 → pyIsSpace (Char.ofNat n) = false →
    ∃ c ∈ pyUpperChar (Char.ofNat n), pyIsSpace c = false := by decide

theorem hasNonWS_pyUpperChar {h : Char} (hns : pyIsSpace h = false) :
    ∃ c ∈ pyUpperChar h, pyIsSpace c = false := by
  by_cases hn : h.toNat < 1120
  · have := pyUpperChar_small h.toNat hn (by rwa [Char.ofNat_toNat])
    rwa [Char.ofNat_toNat] at this
  · refine ⟨h, ?_, hns⟩
    unfold pyUpperChar
    have h1 : ¬(0x61 ≤ h.toNat && h.toNat ≤ 0x7A) = true := by
      simp only [Bool.and_eq_true, decide_eq_true_eq]
      omega
    have h2 : ¬(0x430 ≤ h.toNat && h.toNat ≤ 0x44F) = true := by
      simp only [Bool.and_eq_true, decide_eq_true_eq]
      omega
    have h3 : ¬(0x450 ≤ h.toNat && h.toNat ≤ 0x45F) = true := by
      simp only [Bool.and_eq_true, decide_eq_true_eq]
      omega
    have h4 : ¬(h.toNat = 0xDF) := by omega
    have h5 : ¬(h.toNat = 0x131) := by omega
    have h6 : ¬(h.toNat = 0x17F) := by omega
    simp only [if_neg h1, if_neg h2, if_neg h3, if_neg h4, if_neg h5, if_neg h6]
    exact List.mem_singleton_self _

theorem hasNonWS_capFirst_strip {l : List Char} (h : hasNonWS l) :
    hasNonWS (capFirst (pyStripL l)) := by
  cases hs : pyStripL l with
  | nil => exact absurd hs ((hasNonWS_iff_stripL_ne_nil l).mp h)
  | cons c t =>
    have hc : pyIsSpace c = false := pyStripL_head_nonspace hs
    cases ht : t with
    | nil =>
      show hasNonWS (if pyIsAlpha c = true then pyUpperChar c ++ [] else c :: [])
      by_cases ha : pyIsAlpha c = true
      · rw [if_pos ha]
        obtain ⟨d, hd, hdns⟩ := hasNonWS_pyUpperChar hc
        exact ⟨d, List.mem_append.mpr (Or.inl hd), hdns⟩
      · rw [if_neg ha]
        exact ⟨c, List.mem_cons_self _ _, hc⟩
    | cons t0 ts =>
      have hlast : (pyStripL l).getLast? = some ((c :: t0 :: ts).getLast (by simp)) := by
        rw [hs, ht]
        exact List.getLast?_eq_getLast _ _
      have hlns : pyIsSpace ((c :: t0 :: ts).getLast (by simp)) = false := by
        unfold pyStripL at hlast
        exact rstripL_getLast_nonspace hlast
      have hmem : (c :: t0 :: ts).getLast (by simp) ∈ t0 :: ts := by
        rw [List.getLast_cons (by simp)]
        exact List.getLast_mem _
      show hasNonWS (if pyIsAlpha c = true then pyUpperChar c ++ (t0 :: ts) else c :: t0 :: ts)
      by_cases ha : pyIsAlpha c = true
      · rw [if_pos ha]
        exact ⟨_, List.mem_append.mpr (Or.inr hmem), hlns⟩
      · rw [if_neg ha]
        exact ⟨_, List.mem_cons_of_mem _ hmem, hlns⟩

theorem hasNonWS_capChunk {p : List Char} (h : hasNonWS p) : hasNonWS (capChunk p) := by
  unfold capChunk
  by_cases hb : (pyStripL p).isEmpty = true
  · rw [if_pos hb]; exact h
  · rw [if_neg hb]; exact hasNonWS_capFirst_strip h

theorem capEvens_exists {pieces : List (List Char)} :
    ∀ i : Nat, (∃ p ∈ pieces, hasNonWS p) → ∃ p' ∈ capEvens i pieces, hasNonWS p' := by
  induction pieces with
  | nil => intro i h; obtain ⟨p, hp, _⟩ := h; cases hp
  | cons p ps ih =>
    intro i h
    obtain ⟨q, hq, hqn⟩ := h
    rcases List.mem_cons.mp hq with rfl | hq
    · by_cases hi : i % 2 = 0
      · exact ⟨capChunk q, by simp [capEvens, hi], hasNonWS_capChunk hqn⟩
      · exact ⟨q, by simp [capEvens, hi], hqn⟩
    · obtain ⟨p', hp', hn'⟩ := ih (i + 1) ⟨q, hq, hqn⟩
      exact ⟨p', by simp [capEvens]; right; exact hp', hn'⟩

theorem split_flatten {sep : Char → Bool} :
    ∀ (l acc : List Char),
      (splitChunk sep acc l).flatten = acc.reverse ++ l ∧
      (splitSep sep acc l).flatten = acc.reverse ++ l := by
  intro l
  induction l with
  | nil => intro acc; constructor <;> simp [splitChunk, splitSep]
  | cons c cs ih =>
    intro acc
    constructor
    · unfold splitChunk
      by_cases h : sep c = true
      · rw [if_pos h]
        simp [(ih [c]).2]
      · rw [if_neg h]
        rw [(ih (c :: acc)).1]
        simp
    · unfold splitSep
      by_cases h1 : pyIsSpace c = true
      · rw [if_pos h1]
        rw [(ih (c :: acc)).2]
        simp
      · rw [if_neg h1]
        by_cases h2 : sep c = true
        · rw [if_pos h2]
          simp [(ih [c]).2]
        · rw [if_neg h2]
          rw [List.flatten_cons, (ih [c]).1]
          simp

theorem hasNonWS_flatten_iff (L : List (List Char)) :
    hasNonWS L.flatten ↔ ∃ p ∈ L, hasNonWS p := by
  constructor
  · rintro ⟨c, hc, hns⟩
    obtain ⟨p, hp, hcp⟩ := List.mem_flatten.mp hc
    exact ⟨p, hp, c, hcp, hns⟩
  · rintro ⟨p, hp, c, hcp, hns⟩
    exact ⟨c, List.mem_flatten.mpr ⟨p, hp, hcp⟩, hns⟩

theorem hasNonWS_collapseWSAux : ∀ (l : List Char) (b : Bool),
    hasNonWS l → hasNonWS (collapseWSAux b l) := by
  intro l
  induction l with
  | nil => intro b h; obtain ⟨c, hc, _⟩ := h; cases hc
  | cons c cs ih =>
    intro b h
    obtain ⟨x, hx, hxs⟩ := h
    unfold collapseWSAux
    by_cases hc : pyIsSpace c = true
    · have hxcs : x ∈ cs := by
        rcases List.mem_cons.mp hx with rfl | hx
        · rw [hc] at hxs; cases hxs
        · exact hx
      have hrec := ih true ⟨x, hxcs, hxs⟩
      by_cases hb : b = true
      · simpa [hc, hb] using hrec
      · obtain ⟨y, hy, hyn⟩ := hrec
        have hb' : b = false := by simpa using hb
        rw [hc, hb']
        exact ⟨y, by simp; right; exact hy, hyn⟩
    · rw [if_neg hc]
      rcases List.mem_cons.mp hx with rfl | hx
      · exact ⟨x, List.mem_cons_self _ _, hxs⟩
      · obtain ⟨y, hy, hyn⟩ := ih false ⟨x, hx, hxs⟩
        exact ⟨y, List.mem_cons_of_mem _ hy, hyn⟩

theorem hasNonWS_rmSpaceBeforeAux {cls : Char → Bool} : ∀ (l run : List Char),
    hasNonWS l → hasNonWS (rmSpaceBeforeAux cls run l) := by
  intro l
  induction l with
  | nil => intro run h; obtain ⟨c, hc, _⟩ := h; cases hc
  | cons c cs ih =>
    intro run h
    obtain ⟨x, hx, hxs⟩ := h
    unfold rmSpaceBeforeAux
    by_cases hc : pyIsSpace c = true
    · have hxcs : x ∈ cs := by
        rcases List.mem_cons.mp hx with rfl | hx
        · rw [hc] at hxs; cases hxs
        · exact hx
      rw [if_pos hc]
      exact ih (c :: run) ⟨x, hxcs, hxs⟩
    · rw [if_neg hc]
      by_cases h2 : (cls c && !run.isEmpty) = true
      · rw [if_pos h2]
        rcases List.mem_cons.mp hx with rfl | hx
        · exact ⟨x, List.mem_cons_self _ _, hxs⟩
        · obtain ⟨y, hy, hyn⟩ := ih [] ⟨x, hx, hxs⟩
          exact ⟨y, List.mem_cons_of_mem _ hy, hyn⟩
      · rw [if_neg h2]
        rcases List.mem_cons.mp hx with rfl | hx
        · exact ⟨x, by simp, hxs⟩
        · obtain ⟨y, hy, hyn⟩ := ih [] ⟨x, hx, hxs⟩
          exact ⟨y, by simp; right; right; exact hy, hyn⟩

theorem mem_addSpaceAfter (p q : Char → Bool) :
    ∀ (l : List Char) (x : Char), x ∈ l → x ∈ addSpaceAfter p q l
  | [], x, h => absurd h (by simp)
  | [c], x, h => by simpa [addSpaceAfter] using h
  | c :: d :: rest, x, h => by
    unfold addSpaceAfter
    by_cases hpq : (p c && q d) = true
    · rw [if_pos hpq]
      rcases List.mem_cons.mp h with rfl | h
      · exact List.mem_cons_self _ _
      · rcases List.mem_cons.mp h with rfl | h
        · simp
        · have := mem_addSpaceAfter p q rest x h
          simp only [List.mem_cons]
          right; right; right; exact this
    · rw [if_neg hpq]
      rcases List.mem_cons.mp h with rfl | h
      · exact List.mem_cons_self _ _
      · exact List.mem_cons_of_mem _ (mem_addSpaceAfter p q (d :: rest) x h)

theorem hasNonWS_addSpaceAfter {p q : Char → Bool} {l : List Char}
    (h : hasNonWS l) : hasNonWS (addSpaceAfter p q l) := by
  obtain ⟨c, hc, hns⟩ := h
  exact ⟨c, mem_addSpaceAfter p q l c hc, hns⟩

theorem hasNonWS_collapseRunsAux {cls : Char → Bool}
    (hcls : ∀ c, cls c = true → pyIsSpace c = false) :
    ∀ (l : List Char) (o : Option Char),
      (match o with
       | some pc => cls pc = true
       | none => hasNonWS l) →
      hasNonWS (collapseRunsAux cls o l) := by
  intro l
  induction l with
  | nil =>
    intro o ho
    cases o with
    | none => obtain ⟨c, hc, _⟩ := ho; cases hc
    | some pc => exact ⟨pc, List.mem_singleton_self _, hcls pc ho⟩
  | cons c cs ih =>
    intro o ho
    cases o with
    | none =>
      unfold collapseRunsAux
      by_cases hc : cls c = true
      · rw [if_pos hc]
        exact ih (some c) hc
      · rw [if_neg hc]
        obtain ⟨x, hx, hxs⟩ := ho
        rcases List.mem_cons.mp hx with rfl | hx
        · exact ⟨x, List.mem_cons_self _ _, hxs⟩
        · by_cases hcs : hasNonWS cs
          · obtain ⟨y, hy, hyn⟩ := ih none hcs
            exact ⟨y, List.mem_cons_of_mem _ hy, hyn⟩
          · exact absurd ⟨x, hx, hxs⟩ hcs
    | some pc =>
      unfold collapseRunsAux
      by_cases hc : cls c = true
      · rw [if_pos hc]
        exact ih (some c) hc
      · rw [if_neg hc]
        exact ⟨pc, List.mem_cons_self _ _, hcls pc ho⟩

theorem isTermPunct_nonspace : ∀ c : Char, isTermPunct c = true → pyIsSpace c = false := by
  intro c hc
  simp only [isTermPunct, isTermAscii, isTermCJK, Bool.or_eq_true, decide_eq_true_eq] at hc
  rcases hc with ((rfl | rfl) | rfl) | ((rfl | rfl) | rfl) <;> decide

theorem hasNonWS_cleanUpL {l : List Char} (h : hasNonWS l) : hasNonWS (cleanUpL l) := by
  unfold cleanUpL
  apply hasNonWS_collapseRunsAux isTermPunct_nonspace _ none
  apply hasNonWS_pyStripL
  rw [hasNonWS_flatten_iff]
  apply capEvens_exists 0
  rw [← hasNonWS_flatten_iff]
  rw [(split_flatten _ []).1]
  simp only [List.reverse_nil, List.nil_append]
  exact hasNonWS_addSpaceAfter (hasNonWS_addSpaceAfter
    (hasNonWS_rmSpaceBeforeAux _ [] (hasNonWS_rmSpaceBeforeAux _ []
      (hasNonWS_collapseWSAux l false h))))

/-! ### Non-emptiness of the natural-text reconstruction (C8) -/

theorem cleanUpNaturalText_data (s : String) : (cleanUpNaturalText s).data = cleanUpL s.data :=
  rfl

theorem pyStrip_data (s : String) : (pyStrip s).data = pyStripL s.data := rfl

theorem string_mk_eq_empty_iff (l : List Char) : (⟨l⟩ : String) = "" ↔ l = [] := by
  constructor
  · intro h
    exact congrArg String.data h
  · intro h
    subst h
    rfl

theorem pyStrip_ne_empty_iff (s : String) : pyStrip s ≠ "" ↔ hasNonWS s.data := by
  rw [hasNonWS_iff_stripL_ne_nil]
  exact not_congr (string_mk_eq_empty_iff (pyStripL s.data))

theorem hasNonWS_of_strip_ne {s : String} (h : pyStrip s ≠ "") :
    hasNonWS (pyStrip s).data := by
  show hasNonWS (pyStripL s.data)
  cases hsx : pyStripL s.data with
  | nil =>
    refine absurd ?_ h
    unfold pyStrip
    rw [string_mk_eq_empty_iff]
    exact hsx
  | cons c t =>
    exact ⟨c, List.mem_cons_self _ _, pyStripL_head_nonspace hsx⟩

theorem buildTextParts_exists :
    ∀ (ws : List TimelineWord) (acc : List String),
      ((∃ w ∈ ws, pyStrip w.text ≠ "") ∨ (∃ s ∈ acc, hasNonWS s.data)) →
      ∃ s ∈ buildTextParts acc ws, hasNonWS s.data := by
  intro ws
  induction ws with
  | nil =>
    intro acc h
    rcases h with ⟨w, hw, _⟩ | hacc
    · cases hw
    · simpa [buildTextParts] using hacc
  | cons w ws ih =>
    intro acc h
    have hnext : (∃ w' ∈ ws, pyStrip w'.text ≠ "") ∨ (∃ s ∈ acc, hasNonWS s.data) →
        ((∃ w' ∈ ws, pyStrip w'.text ≠ "") ∨ (∃ s ∈ acc, hasNonWS s.data)) := id
    by_cases ht : pyStrip w.text = ""
    · have hstep : buildTextParts acc (w :: ws) = buildTextParts acc ws := by
        simp [buildTextParts, ht]
      rw [hstep]
      apply ih
      rcases h with ⟨w', hw', hne⟩ | hacc
      · rcases List.mem_cons.mp hw' with rfl | hw'
        · exact absurd ht hne
        · exact Or.inl ⟨w', hw', hne⟩
      · exact Or.inr hacc
    · have htext : hasNonWS (pyStrip w.text).data := hasNonWS_of_strip_ne ht
      by_cases hch : isChineseText (pyStrip w.text) = true
      · have hstep : buildTextParts acc (w :: ws)
            = buildTextParts (pyStrip w.text :: acc) ws := by
          simp [buildTextParts, ht, hch]
        rw [hstep]
        exact ih _ (Or.inr ⟨pyStrip w.text, List.mem_cons_self _ _, htext⟩)
      · by_cases hpt : isPunctToken (pyStrip w.text) = true
        · cases acc with
          | nil =>
            have hstep : buildTextParts [] (w :: ws)
                = buildTextParts [pyStrip w.text] ws := by
              simp [buildTextParts, ht, hch, hpt]
            rw [hstep]
            exact ih _ (Or.inr ⟨pyStrip w.text, List.mem_singleton_self _, htext⟩)
          | cons p rest =>
            have hstep : buildTextParts (p :: rest) (w :: ws)
                = buildTextParts ((p ++ pyStrip w.text) :: rest) ws := by
              simp [buildTextParts, ht, hch, hpt]
            rw [hstep]
            refine ih _ (Or.inr ⟨p ++ pyStrip w.text, List.mem_cons_self _ _, ?_⟩)
            obtain ⟨c, hc, hcn⟩ := htext
            exact ⟨c, by rw [String.data_append]; exact List.mem_append.mpr (Or.inr hc), hcn⟩
        · have hstep : buildTextParts acc (w :: ws)
              = buildTextParts (pyStrip w.text :: acc) ws := by
            simp [buildTextParts, ht, hch, hpt]
          rw [hstep]
          exact ih _ (Or.inr ⟨pyStrip w.text, List.mem_cons_self _ _, htext⟩)

theorem joinParts_exists :
    ∀ (parts : List String) (prev : String) (acc : List String),
      ((∃ s ∈ acc, hasNonWS s.data) ∨ (∃ s ∈ parts, hasNonWS s.data)) →
      ∃ s ∈ joinParts prev acc parts, hasNonWS s.data := by
  intro parts
  induction parts with
  | nil =>
    intro prev acc h
    rcases h with hacc | ⟨s, hs, _⟩
    · simpa [joinParts] using hacc
    · cases hs
  | cons part rest ih =>
    intro prev acc h
    have hsplit : (∃ s ∈ acc, hasNonWS s.data) ∨
        (hasNonWS part.data ∨ (∃ s ∈ rest, hasNonWS s.data)) := by
      rcases h with hacc | ⟨s, hs, hn⟩
      · exact Or.inl hacc
      · rcases List.mem_cons.mp hs with rfl | hs
        · exact Or.inr (Or.inl hn)
        · exact Or.inr (Or.inr ⟨s, hs, hn⟩)
    by_cases hch : (isChineseText part || isChineseText prev) = true
    · have hstep : joinParts prev acc (part :: rest) = joinParts part (part :: acc) rest := by
        simp only [joinParts]
        rw [if_pos hch]
      rw [hstep]
      apply ih
      rcases hsplit with hacc | hpr
      · obtain ⟨s, hs, hn⟩ := hacc
        exact Or.inl ⟨s, List.mem_cons_of_mem _ hs, hn⟩
      · rcases hpr with hp | hr
        · exact Or.inl ⟨part, List.mem_cons_self _ _, hp⟩
        · exact Or.inr hr
    · by_cases hsw : startsWithPunct part = true
      · cases acc with
        | nil =>
          have hstep : joinParts prev [] (part :: rest) = joinParts part [part] rest := by
            simp only [joinParts]
            rw [if_neg hch, if_pos hsw]
          rw [hstep]
          apply ih
          rcases hsplit with ⟨s, hs, _⟩ | hpr
          · cases hs
          · rcases hpr with hp | hr
            · exact Or.inl ⟨part, List.mem_singleton_self _, hp⟩
            · exact Or.inr hr
        | cons r racc =>
          have hstep : joinParts prev (r :: racc) (part :: rest)
              = joinParts part ((r ++ part) :: racc) rest := by
            simp only [joinParts]
            rw [if_neg hch, if_pos hsw]
          rw [hstep]
          apply ih
          rcases hsplit with ⟨s, hs, hn⟩ | hpr
          · rcases List.mem_cons.mp hs with rfl | hs
            · refine Or.inl ⟨s ++ part, List.mem_cons_self _ _, ?_⟩
              obtain ⟨c, hc, hcn⟩ := hn
              exact ⟨c, by rw [String.data_append]; exact List.mem_append.mpr (Or.inl hc), hcn⟩
            · exact Or.inl ⟨s, List.mem_cons_of_mem _ hs, hn⟩
          · rcases hpr with hp | hr
            · refine Or.inl ⟨r ++ part, List.mem_cons_self _ _, ?_⟩
              obtain ⟨c, hc, hcn⟩ := hp
              exact ⟨c, by rw [String.data_append]; exact List.mem_append.mpr (Or.inr hc), hcn⟩
            · exact Or.inr hr
      · have hstep : joinParts prev acc (part :: rest)
            = joinParts part ((" " ++ part) :: acc) rest := by
          simp only [joinParts]
          rw [if_neg hch, if_neg hsw]
        rw [hstep]
        apply ih
        rcases hsplit with hacc | hpr
        · obtain ⟨s, hs, hn⟩ := hacc
          exact Or.inl ⟨s, List.mem_cons_of_mem _ hs, hn⟩
        · rcases hpr with hp | hr
          · refine Or.inl ⟨" " ++ part, List.mem_cons_self _ _, ?_⟩
            obtain ⟨c, hc, hcn⟩ := hp
            exact ⟨c, by rw [String.data_append]; exact List.mem_append.mpr (Or.inr hc), hcn⟩
          · exact Or.inr hr

theorem string_foldl_append_data :
    ∀ (L : List String) (acc : String),
      (L.foldl (fun r s => r ++ s) acc).data = acc.data ++ (L.map String.data).flatten := by
  intro L
  induction L with
  | nil => intro acc; simp
  | cons s rest ih =>
    intro acc
    rw [List.foldl_cons, ih]
    simp

theorem string_join_data (L : List String) :
    (String.join L).data = (L.map String.data).flatten := by
  unfold String.join
  rw [string_foldl_append_data]
  rfl

theorem build_sentence_hasNW {ws : List TimelineWord}
    (h : ∃ w ∈ ws, pyStrip w.text ≠ "") :
    hasNonWS (build_sentence_from_words ws).data := by
  simp only [build_sentence_from_words]
  obtain ⟨s, hs, hsn⟩ := buildTextParts_exists ws [] (Or.inl h)
  have hrev : s ∈ (buildTextParts [] ws).reverse := List.mem_reverse.mpr hs
  cases hp : (buildTextParts [] ws).reverse with
  | nil => rw [hp] at hrev; cases hrev
  | cons p rest =>
    rw [hp] at hrev
    show hasNonWS (String.join (joinParts p [p] rest).reverse).data
    have hjoin : ∃ t ∈ joinParts p [p] rest, hasNonWS t.data := by
      apply joinParts_exists
      rcases List.mem_cons.mp hrev with rfl | hrest
      · exact Or.inl ⟨s, List.mem_singleton_self _, hsn⟩
      · exact Or.inr ⟨s, hrest, hsn⟩
    obtain ⟨t, htm, htn⟩ := hjoin
    obtain ⟨c, hc, hcn⟩ := htn
    refine ⟨c, ?_, hcn⟩
    rw [string_join_data]
    exact List.mem_flatten.mpr ⟨t.data,
      List.mem_map.mpr ⟨t, List.mem_reverse.mpr htm, rfl⟩, hc⟩

theorem hasNonWS_joinSpace :
    ∀ (L : List String) (s : String), s ∈ L → hasNonWS s.data →
      hasNonWS (joinSpace L).data := by
  intro L
  induction L with
  | nil => intro s h; cases h
  | cons x rest ih =>
    intro s hs hn
    cases rest with
    | nil =>
      have : s = x := by simpa using hs
      subst this
      simpa [joinSpace] using hn
    | cons y ys =>
      show hasNonWS (x ++ " " ++ joinSpace (y :: ys)).data
      rcases List.mem_cons.mp hs with rfl | hs
      · obtain ⟨c, hc, hcn⟩ := hn
        refine ⟨c, ?_, hcn⟩
        rw [String.data_append, String.data_append]
        exact List.mem_append.mpr (Or.inl (List.mem_append.mpr (Or.inl hc)))
      · obtain ⟨c, hc, hcn⟩ := ih s hs hn
        refine ⟨c, ?_, hcn⟩
        rw [String.data_append]
        exact List.mem_append.mpr (Or.inr hc)

theorem flush_exists {st : SentenceLoopState} (h : sentInv st) :
    ∃ s ∈ flushSentence st, hasNonWS s.data := by
  unfold flushSentence
  rcases h with ⟨s, hs, hn⟩ | hcur
  · by_cases hb : pyStrip (build_sentence_from_words st.current) = ""
    · rw [if_pos hb]; exact ⟨s, hs, hn⟩
    · rw [if_neg hb]; exact ⟨s, List.mem_append.mpr (Or.inl hs), hn⟩
  · have hw := build_sentence_hasNW hcur
    have hne : ¬(pyStrip (build_sentence_from_words st.current) = "") := by
      rw [← ne_eq, pyStrip_ne_empty_iff]
      exact hw
    rw [if_neg hne]
    exact ⟨_, List.mem_append.mpr (Or.inr (List.mem_singleton_self _)), hw⟩

theorem sentenceStep_establishes (st : SentenceLoopState) (prev? : Option TimelineWord)
    (w : TimelineWord) (h : pyStrip w.text ≠ "") : sentInv (sentenceStep st prev? w) := by
  simp only [sentenceStep]
  rw [if_neg h]
  by_cases hbr : shouldBreak st prev? w = true
  · rw [if_pos hbr]
    exact Or.inr ⟨w, by simp, h⟩
  · rw [if_neg hbr]
    exact Or.inr ⟨w, by simp, h⟩

theorem sentenceStep_inv (st : SentenceLoopState) (prev? : Option TimelineWord)
    (w : TimelineWord) (h : sentInv st) : sentInv (sentenceStep st prev? w) := by
  simp only [sentenceStep]
  by_cases ht : pyStrip w.text = ""
  · rw [if_pos ht]
    exact h
  · rw [if_neg ht]
    by_cases hbr : shouldBreak st prev? w = true
    · rw [if_pos hbr]
      obtain ⟨s, hs, hn⟩ := flush_exists h
      exact Or.inl ⟨s, by simpa using hs, hn⟩
    · rw [if_neg hbr]
      rcases h with ⟨s, hs, hn⟩ | ⟨w', hw', hn'⟩
      · exact Or.inl ⟨s, by simpa using hs, hn⟩
      · exact Or.inr ⟨w', by simp; exact Or.inl hw', hn'⟩

theorem sentenceLoop_inv :
    ∀ (l : List (Option TimelineWord × TimelineWord)) (st : SentenceLoopState),
      ((∃ pw ∈ l, pyStrip pw.2.text ≠ "") ∨ sentInv st) →
      sentInv (l.foldl (fun st pw => sentenceStep st pw.1 pw.2) st) := by
  intro l
  induction l with
  | nil =>
    intro st h
    rcases h with ⟨pw, hpw, _⟩ | h
    · cases hpw
    · exact h
  | cons pw rest ih =>
    intro st h
    rw [List.foldl_cons]
    rcases h with ⟨pw', hpw', hne'⟩ | h
    · rcases List.mem_cons.mp hpw' with rfl | hpw'
      · exact ih _ (Or.inr (sentenceStep_establishes st pw'.1 pw'.2 hne'))
      · exact ih _ (Or.inl ⟨pw', hpw', hne'⟩)
    · exact ih _ (Or.inr (sentenceStep_inv st pw.1 pw.2 h))

theorem withPrev_map_snd (l : List TimelineWord) : (withPrev l).map Prod.snd = l := by
  unfold withPrev
  exact List.map_snd_zip _ _ (by simp)

/-- Claim **C8 (amended).** If the confidence filter removes every word, the
assembly falls back to the unfiltered list (this fallback is the
`assemblyWords` definition); the reconstructed text is non-empty whenever
the assembly word list contains a word whose text has a non-whitespace
character. (A non-empty word list whose texts are all blank yields empty
text, so the claim's unconditional form fails.) -/
theorem natural_text_nonempty (words : List TimelineWord)
    (h : ∃ w ∈ assemblyWords words, pyStrip w.text ≠ "") :
    create_natural_text_from_timeline words ≠ "" := by
  obtain ⟨w0, hw0, hne0⟩ := h
  have hwne : words.isEmpty = false := by
    cases words with
    | nil => simp [assemblyWords] at hw0
    | cons a as => rfl
  have h1 : ∃ pw ∈ withPrev (assemblyWords words), pyStrip pw.2.text ≠ "" := by
    have hmem : w0 ∈ (withPrev (assemblyWords words)).map Prod.snd := by
      rw [withPrev_map_snd]
      exact hw0
    obtain ⟨pw, hpw, hpw2⟩ := List.mem_map.mp hmem
    exact ⟨pw, hpw, by rw [hpw2]; exact hne0⟩
  have h2 : sentInv (runSentenceLoop (assemblyWords words)) := by
    unfold runSentenceLoop
    exact sentenceLoop_inv _ _ (Or.inl h1)
  obtain ⟨s, hs, hn⟩ := flush_exists h2
  have h4 : hasNonWS (joinSpace (flushSentence (runSentenceLoop (assemblyWords words)))).data :=
    hasNonWS_joinSpace _ s hs hn
  have h6 : hasNonWS (cleanUpNaturalText (pyStrip (joinSpace
      (flushSentence (runSentenceLoop (assemblyWords words)))))).data := by
    rw [cleanUpNaturalText_data, pyStrip_data]
    exact hasNonWS_cleanUpL (hasNonWS_pyStripL h4)
  intro hcon
  unfold create_natural_text_from_timeline at hcon
  rw [hwne] at hcon
  simp only [Bool.false_eq_true, if_false] at hcon
  rw [hcon] at h6
  obtain ⟨c, hc, _⟩ := h6
  cases hc

/-- Witness for `natural_text_nonempty` at a one-word list. -/
theorem natural_text_nonempty_witness :
    create_natural_text_from_timeline exHelloWord ≠ "" := by
  have hp : passesConfidenceFilter exHelloW = true := by
    unfold passesConfidenceFilter
    have h1 : decide (confValue exHelloW ≥ 0.3) = true := by
      norm_num [confValue, exHelloW]
    simp [h1]
  have ha : assemblyWords exHelloWord = exHelloWord := by
    simp [assemblyWords, exHelloWord, List.filter, hp]
  exact natural_text_nonempty exHelloWord
    (by rw [ha]; exact ⟨exHelloW, List.mem_singleton_self _, by decide⟩)

/-- Claim **C8 (counterexample).** A non-empty word list whose only word has
empty text reconstructs to the empty string, refuting the claim that a
non-empty input always yields non-empty text. -/
theorem natural_text_empty_for_blank_word :
    create_natural_text_from_timeline exEmptyTextWord = "" ∧ exEmptyTextWord ≠ [] := by
  constructor
  · have hp : passesConfidenceFilter exBlankW = true := by
      unfold passesConfidenceFilter
      have h2 : decide ((pyStrip exBlankW.text).length ≤ 2) = true := by decide
      simp [h2]
    have ha : assemblyWords exEmptyTextWord = exEmptyTextWord := by
      simp [assemblyWords, exEmptyTextWord, List.filter, hp]
    have hw : exEmptyTextWord.isEmpty = false := rfl
    unfold create_natural_text_from_timeline
    rw [hw]
    simp only [Bool.false_eq_true, if_false]
    rw [ha]
    decide
  · unfold exEmptyTextWord
    exact List.cons_ne_nil _ _

end Kristy



